import Mathlib

/-!
Verification of the m3u8 playlist parser and serializer (`src/lib.rs`,
`src/error.rs`) against its specification.

Modelling conventions:
* Rust `&str` text is modelled as `List Char`; `str::lines()` is modelled
  faithfully (split at `'\n'`, stripping one trailing `'\r'` from every
  line that was terminated by a `'\n'`).
* The nom combinators used by the source (`is_not`, `tag`, `char`,
  `separated_pair`, `alt`, `preceded`, `terminated`, `recognize`,
  `delimited`, `separated_list0`) are modelled by explicit functions on
  `List Char`; in particular `is_not` fails when it matches zero
  characters, exactly as nom's complete `is_not` does.
* `indexmap::IndexMap` is modelled as an association list with the
  IndexMap insertion discipline: inserting an existing key overwrites the
  value in place (keeping the first-seen position), a new key is appended.
* Rust `f64` is modelled as `Rat` with exact decimal semantics: parsing a
  decimal literal yields the exact rational it denotes (the `inf`,
  `infinity` and `nan` forms and binary rounding of `f64` are not
  modelled), and `{:.3}` formatting rounds the rational to the nearest
  multiple of 1/1000 (ties, which are not realisable by dyadic `f64`
  values, round up).
* Machine integers `u8`/`u32` are `Nat` values with the width bound
  enforced at parse time, as `str::parse::<u8>`/`<u32>` does.
* `MediaList::save` is modelled for a sink that accepts every write, so it
  becomes a pure function from a `MediaList` to the emitted text.
-/

namespace M3U8

/-! ## Characters and lines -/

/-- One-step carriage-return strip: drop a single trailing CR, as Rust
`lines()` does to every newline-terminated line. -/
def rstripCr (l : List Char) : List Char :=
  match l.reverse with
  | [] => l
  | c :: r => if c = '\r' then r.reverse else l

/-- Split a character list at every newline; the result always has one more
piece than there are newlines (so a trailing newline yields a final empty
piece). -/
def splitNl : List Char → List (List Char)
  | [] => [[]]
  | c :: cs =>
    let r := splitNl cs
    if c = '\n' then [] :: r
    else
      match r with
      | [] => [[c]]
      | l :: ls => (c :: l) :: ls

/-- Model of Rust `str::lines()`: split at `'\n'`, drop the final empty
piece produced by a trailing newline, and strip one `'\r'` from the end of
every piece that was terminated by a `'\n'`. -/
def linesOf (t : List Char) : List (List Char) :=
  match (splitNl t).reverse with
  | [] => []
  | last :: revInit =>
    if last = [] then (revInit.reverse).map rstripCr
    else (revInit.reverse).map rstripCr ++ [last]

/-! ## nom combinators -/

/-- Model of nom's complete `is_not` for the one-character sets the source
uses: consume the longest nonempty run of characters other than `bad`;
fail (return `none`) if that run is empty.  Returns
`(remaining, matched)`, mirroring `IResult`. -/
def isNotC (bad : Char) (i : List Char) : Option (List Char × List Char) :=
  let m := i.takeWhile (fun c => c != bad)
  if m.isEmpty then none else some (i.drop m.length, m)

/-- Model of `not_newline` from the source. -/
def not_newline (i : List Char) : Option (List Char × List Char) :=
  isNotC '\n' i

/-- The fixed document header consumed by `ext_identifier`. -/
def extHeader : List Char := "#EXTM3U\n".data

/-- Model of `ext_identifier`: `tag("#EXTM3U\n")`. -/
def ext_identifier (t : List Char) : Option (List Char) :=
  if extHeader.isPrefixOf t then some (t.drop extHeader.length) else none

/-- Model of `ext_type` up to the `From` conversion:
`preceded(tag("#EXT"), alt((terminated(is_not(":"), char(':')), not_newline)))`.
Returns `(remaining, rawTagName)`. -/
def ext_type_raw (line : List Char) : Option (List Char × List Char) :=
  let head := "#EXT".data
  if head.isPrefixOf line then
    let rest := line.drop head.length
    match isNotC ':' rest with
    | some (after, name) =>
      match after with
      | ':' :: r => some (r, name)
      | _ =>
        match not_newline rest with
        | some (after2, name2) => some (after2, name2)
        | none => none
    | none =>
      match not_newline rest with
      | some (after2, name2) => some (after2, name2)
      | none => none
  else none

/-- Model of `comma_sep_pair`:
`separated_pair(is_not(","), tag(","), not_newline)`.
Returns `(remaining, (first, second))`. -/
def comma_sep_pair (i : List Char) : Option (List Char × (List Char × List Char)) :=
  match isNotC ',' i with
  | none => none
  | some (after, durText) =>
    match after with
    | ',' :: r =>
      match not_newline r with
      | none => none
      | some (after2, titText) => some (after2, (durText, titText))
    | _ => none

/-- Model of `read_quoted_attribute`:
`recognize(delimited(char('"'), is_not("\""), char('"')))` — the matched
text keeps its surrounding quotes. -/
def read_quoted_attribute (i : List Char) : Option (List Char × List Char) :=
  match i with
  | '"' :: r =>
    match isNotC '"' r with
    | some (after, inner) =>
      match after with
      | '"' :: r2 => some (r2, '"' :: (inner ++ [ '"' ]))
      | _ => none
    | none => none
  | _ => none

/-- Model of `attribute_key_val`:
`separated_pair(is_not("="), tag("="), alt((read_quoted_attribute, is_not(","))))`. -/
def attribute_key_val (i : List Char) : Option (List Char × (List Char × List Char)) :=
  match isNotC '=' i with
  | none => none
  | some (after, key) =>
    match after with
    | '=' :: r =>
      match read_quoted_attribute r with
      | some (r2, v) => some (r2, (key, v))
      | none =>
        match isNotC ',' r with
        | some (r2, v) => some (r2, (key, v))
        | none => none
    | _ => none

/-- IndexMap modelled as an association list. -/
abbrev AttrMap := List (List Char × List Char)

/-- `IndexMap::insert`: overwrite the value in place when the key exists
(keeping the key's first-seen position), append otherwise. -/
def indexInsert (m : AttrMap) (k v : List Char) : AttrMap :=
  if m.any (fun p => p.1 = k) then
    m.map (fun p => if p.1 = k then (p.1, v) else p)
  else m ++ [(k, v)]

/-- Key lookup in the association-list model of `IndexMap`. -/
def attrGet (m : AttrMap) (k : List Char) : Option (List Char) :=
  (m.find? (fun p => p.1 = k)).map (fun p => p.2)

/-- The loop of nom's `separated_list0(char(','), attribute_key_val)`,
with fuel bounded by the input length (every iteration consumes at least
the separator character, so the fuel never runs out). -/
def attrListAux : Nat → List Char → List (List Char × List Char) →
    List Char × List (List Char × List Char)
  | 0, i, acc => (i, acc.reverse)
  | fuel + 1, i, acc =>
    match i with
    | ',' :: r =>
      match attribute_key_val r with
      | some (r2, kv) => attrListAux fuel r2 (kv :: acc)
      | none => (i, acc.reverse)
    | _ => (i, acc.reverse)

/-- `separated_list0(char(','), attribute_key_val)`: the raw pair list in
source order.  This parser never fails; a malformed pair simply stops the
list and leaves the rest of the input unconsumed. -/
def attrList (i : List Char) : List Char × List (List Char × List Char) :=
  match attribute_key_val i with
  | none => (i, [])
  | some (r, kv) => attrListAux r.length r [kv]

/-- Model of `attributes`: run `separated_list0` and fold the pairs into an
`IndexMap`. -/
def attributes (i : List Char) : List Char × AttrMap :=
  let (r, l) := attrList i
  (r, l.foldl (fun m kv => indexInsert m kv.1 kv.2) [])

/-! ## Playlist (master) data model and parser -/

/-- Model of `PlaylistExtType`. -/
inductive PlaylistExtType where
  | media
  | streamInf
  | unknown (raw : List Char)

deriving instance DecidableEq for PlaylistExtType

/-- Repeatedly strip a leading `-X-`, as
`trim_start_matches("-X-")` does. -/
def stripDashX : List Char → List Char
  | '-' :: 'X' :: '-' :: rest => stripDashX rest
  | l => l

/-- Model of `From<&str> for PlaylistExtType`. -/
def playlistExtTypeFrom (s : List Char) : PlaylistExtType :=
  let s := stripDashX s
  if s = "MEDIA".data then .media
  else if s = "STREAM-INF".data then .streamInf
  else .unknown s

/-- Model of `PlaylistExtInfo`. -/
structure PlaylistExtInfo where
  ext_type : PlaylistExtType
  attributes : AttrMap

deriving instance DecidableEq for PlaylistExtInfo

/-- Model of `Playlist`. -/
structure Playlist where
  ext_infos : List PlaylistExtInfo

deriving instance DecidableEq for Playlist

/-- Error kinds of `M3U8ParserError` reachable from parsing (the `IoError`
variant can only arise from a sink write, which the pure model does not
perform). -/
inductive M3U8Err where
  | nomError
  | parseIntError
  | parseFloatError

deriving instance DecidableEq for M3U8Err

deriving instance DecidableEq for Except

/-- The line loop of `read_playlist`. -/
def readPlaylistGo : List (List Char) → List PlaylistExtInfo →
    Except M3U8Err Playlist
  | [], acc => .ok ⟨acc⟩
  | line :: rest, acc =>
    match ext_type_raw line with
    | none => .error .nomError
    | some (i, raw) =>
      let t := playlistExtTypeFrom raw
      let attrs := (attributes i).2
      if t = .streamInf then
        match rest with
        | uri :: rest2 =>
          readPlaylistGo rest2 (acc ++ [⟨t, indexInsert attrs "URI".data uri⟩])
        | [] => readPlaylistGo [] (acc ++ [⟨t, attrs⟩])
      else
        readPlaylistGo rest (acc ++ [⟨t, attrs⟩])

/-- Model of `read_playlist`. -/
def read_playlist (data : List Char) : Except M3U8Err Playlist :=
  match ext_identifier data with
  | none => .error .nomError
  | some i => readPlaylistGo (linesOf i) []

/-! ## Numbers: `str::parse::<u8>` / `<u32>` / `<f64>` and `{:.3}` -/

/-- The numeric value of a decimal digit character. -/
def digitVal (c : Char) : Nat := c.toNat - 48

/-- Decimal value of a digit list, most significant first, on top of an
initial accumulator. -/
def valFrom (init : Nat) (l : List Char) : Nat :=
  l.foldl (fun a c => 10 * a + digitVal c) init

/-- Parse a nonempty all-decimal-digit character list. -/
def parseDigits (l : List Char) : Option Nat :=
  if l ≠ [] ∧ l.all (fun c => c.isDigit) then some (valFrom 0 l) else none

/-- Strip the optional leading `'+'` accepted by Rust's unsigned integer
`FromStr` (a `'-'` makes unsigned parsing fail, as in Rust). -/
def stripPlus (s : List Char) : List Char :=
  match s with
  | '+' :: r => r
  | _ => s

/-- Model of `str::parse::<u8>`. -/
def parse_u8 (s : List Char) : Option Nat :=
  match parseDigits (stripPlus s) with
  | some n => if n < 256 then some n else none
  | none => none

/-- Model of `str::parse::<u32>`. -/
def parse_u32 (s : List Char) : Option Nat :=
  match parseDigits (stripPlus s) with
  | some n => if n < 4294967296 then some n else none
  | none => none

/-- The exact rational value of a parsed decimal literal with sign `neg`,
integer mantissa `mant`, `fracLen` fractional digits and exponent
`(if epos then eVal else -eVal)` (built with `mkRat` so that the kernel
can evaluate it). -/
def decValue (neg : Bool) (mant fracLen : Nat) (epos : Bool) (eVal : Nat) : Rat :=
  let num : Int := if neg then -(mant : Int) else (mant : Int)
  if epos then mkRat (num * (10 : Int) ^ eVal) ((10 : Nat) ^ fracLen)
  else mkRat num ((10 : Nat) ^ (fracLen + eVal))

/-- Helper for `parse_f64`: the optional exponent suffix
`(e|E) sign? digits` on top of an already-parsed mantissa.  Succeeds only
when the input is fully consumed. -/
def parseExpTail (neg : Bool) (mant fracLen : Nat) (r : List Char) : Option Rat :=
  match r with
  | [] => some (decValue neg mant fracLen true 0)
  | e :: r1 =>
    if e = 'e' ∨ e = 'E' then
      let (epos, r2) : Bool × List Char :=
        match r1 with
        | '+' :: r2 => (true, r2)
        | '-' :: r2 => (false, r2)
        | _ => (true, r1)
      let ds := r2.takeWhile (fun c => c.isDigit)
      let r3 := r2.drop ds.length
      match parseDigits ds with
      | some n => if r3 = [] then some (decValue neg mant fracLen epos n) else none
      | none => none
    else none

/-- The unsigned part of `parse_f64`:
`digits ('.' digits?)? ((e|E) sign? digits)? | '.' digits ((e|E) sign? digits)?`. -/
def parse_f64_body (neg : Bool) (r : List Char) : Option Rat :=
  let intDs := r.takeWhile (fun c => c.isDigit)
  let r1 := r.drop intDs.length
  match r1 with
  | '.' :: r2 =>
    let fracDs := r2.takeWhile (fun c => c.isDigit)
    let r3 := r2.drop fracDs.length
    if intDs = [] ∧ fracDs = [] then none
    else parseExpTail neg (valFrom (valFrom 0 intDs) fracDs) fracDs.length r3
  | _ =>
    if intDs = [] then none
    else parseExpTail neg (valFrom 0 intDs) 0 r1

/-- Model of `str::parse::<f64>` restricted to finite decimal literals:
`sign? (digits ('.' digits?)? | '.' digits) ((e|E) sign? digits)?`.
The special forms `inf`, `infinity` and `nan` are not modelled, and the
exact rational value is kept instead of rounding to binary `f64`. -/
def parse_f64 (s : List Char) : Option Rat :=
  match s with
  | '+' :: r => parse_f64_body false r
  | '-' :: r => parse_f64_body true r
  | _ => parse_f64_body false s

/-- Decimal digit character of a value below ten. -/
def digitChar (n : Nat) : Char := Char.ofNat (48 + n)

/-- Digit-accumulation loop for rendering a `Nat` in decimal; the fuel is
an upper bound on the number of digits. -/
def natDigitsAux : Nat → Nat → List Char → List Char
  | 0, _, acc => acc
  | fuel + 1, n, acc =>
    if n = 0 then acc
    else natDigitsAux fuel (n / 10) (digitChar (n % 10) :: acc)

/-- Decimal rendering of a `Nat`, modelling Rust's `Display` for unsigned
integers. -/
def natDigits (n : Nat) : List Char :=
  if n = 0 then [ '0' ] else natDigitsAux n n []

/-- The integer nearest to `q * 1000` (ties round up; exact ties are not
realisable by the dyadic values of `f64`): computed as
`⌊(2000 * num + den) / (2 * den)⌋` over the reduced fraction, using only
integer arithmetic so that the kernel can evaluate it. -/
def ratRound3 (q : Rat) : Int := Int.fdiv (2000 * q.num + (q.den : Int)) (2 * (q.den : Int))

/-- A duration rounded to three decimal places, the value reproduced by
serializing with `{:.3}` and re-parsing. -/
def roundDur3 (q : Rat) : Rat := mkRat (ratRound3 q) 1000

/-- Left-pad a digit list with zeros to width three. -/
def pad3 (ds : List Char) : List Char :=
  List.replicate (3 - ds.length) '0' ++ ds

/-- Model of Rust `{:.3}` formatting of an `f64` duration: the value
rounded to three fractional digits, always printing exactly three. -/
def format3 (q : Rat) : List Char :=
  let n := ratRound3 q
  let a := n.natAbs
  (if n < 0 then [ '-' ] else []) ++
    natDigits (a / 1000) ++ [ '.' ] ++ pad3 (natDigits (a % 1000))

/-! ## MediaList data model -/

/-- Model of `MediaExtType`. -/
inductive MediaExtType where
  | version
  | targetDuration
  | mediaSequence
  | dateRange
  | discontinuity
  | inf
  | programDateTime
  | unknown (raw : List Char)

deriving instance DecidableEq for MediaExtType

/-- Model of `From<&str> for MediaExtType`. -/
def mediaExtTypeFrom (s : List Char) : MediaExtType :=
  let s := stripDashX s
  if s = "VERSION".data then .version
  else if s = "TARGETDURATION".data then .targetDuration
  else if s = "MEDIA-SEQUENCE".data then .mediaSequence
  else if s = "DATERANGE".data then .dateRange
  else if s = "DISCONTINUITY".data then .discontinuity
  else if s = "INF".data then .inf
  else if s = "PROGRAM-DATE-TIME".data then .programDateTime
  else .unknown s

/-- Model of `Display for MediaExtType`. -/
def mediaExtTypeShow (t : MediaExtType) : List Char :=
  match t with
  | .version => "VERSION".data
  | .targetDuration => "TARGETDURATION".data
  | .mediaSequence => "MEDIA-SEQUENCE".data
  | .dateRange => "DATERANGE".data
  | .discontinuity => "DISCONTINUITY".data
  | .inf => "INF".data
  | .programDateTime => "PROGRAM-DATE-TIME".data
  | .unknown raw => raw

/-- Model of `MediaExtInfo`. -/
structure MediaExtInfo where
  ext_type : MediaExtType
  attributes : AttrMap

deriving instance DecidableEq for MediaExtInfo

/-- Model of `MediaSegment` (`duration: f64` modelled as `Rat`). -/
structure MediaSegment where
  duration : Rat
  title : Option (List Char)
  uri : List Char
  program_date_time : Option (List Char)

deriving instance DecidableEq for MediaSegment

/-- A media segment after one save/re-parse round trip: the duration is
rounded to three decimal places, everything else is unchanged. -/
def roundSeg3 (s : MediaSegment) : MediaSegment :=
  { s with duration := roundDur3 s.duration }

/-- Model of `MediaList` (`version: u8`, `target_duration: u8`,
`media_sequence: u32` modelled as `Nat`; the parser enforces the width
bounds exactly where the Rust integer parse does). -/
structure MediaList where
  version : Nat
  target_duration : Nat
  media_sequence : Nat
  media_segments : List MediaSegment
  ext_infos : List MediaExtInfo

deriving instance DecidableEq for MediaList

/-! ## read_media_list -/

/-- The mutable local state of `read_media_list`'s loop. -/
structure MState where
  version : Nat
  target_duration : Nat
  media_sequence : Nat
  media_segments : List MediaSegment
  ext_infos : List MediaExtInfo
  current_program_date_time : Option (List Char)

deriving instance DecidableEq for MState

/-- The initial loop state of `read_media_list`. -/
def initMState : MState :=
  { version := 0, target_duration := 0, media_sequence := 0
    media_segments := [], ext_infos := []
    current_program_date_time := none }

/-- Package a final loop state as the returned `MediaList`. -/
def MState.toMediaList (st : MState) : MediaList :=
  { version := st.version, target_duration := st.target_duration
    media_sequence := st.media_sequence
    media_segments := st.media_segments, ext_infos := st.ext_infos }

/-- The line loop of `read_media_list`; each iteration consumes the tag
line and, for a segment-producing `Inf` tag, also the following URI
line. -/
def readMediaGo : List (List Char) → MState → Except M3U8Err MState
  | [], st => .ok st
  | line :: rest, st =>
    match ext_type_raw line with
    | none => .error .nomError
    | some (i, raw) =>
      match mediaExtTypeFrom raw with
      | .dateRange =>
        readMediaGo rest { st with
          ext_infos := st.ext_infos ++ [⟨.dateRange, (attributes i).2⟩] }
      | .unknown nm =>
        match not_newline i with
        | none => .error .nomError
        | some (_, unknownStr) =>
          readMediaGo rest { st with
            ext_infos := st.ext_infos ++
              [⟨.unknown nm, [( "UNKNOWN".data, unknownStr )]⟩] }
      | .programDateTime =>
        match not_newline i with
        | none => .error .nomError
        | some (_, pd) =>
          readMediaGo rest { st with current_program_date_time := some pd }
      | .inf =>
        match comma_sep_pair i with
        | none => .error .nomError
        | some (_, (durText, titText)) =>
          match rest with
          | [] => readMediaGo [] st
          | uri :: rest2 =>
            match parse_f64 durText with
            | none => .error .parseFloatError
            | some d =>
              readMediaGo rest2 { st with
                media_segments := st.media_segments ++
                  [{ duration := d
                     title := if titText = [] then none else some titText
                     uri := uri
                     program_date_time := st.current_program_date_time }]
                current_program_date_time := none }
      | .version =>
        match not_newline i with
        | none => .error .nomError
        | some (_, ver) =>
          match parse_u8 ver with
          | none => .error .parseIntError
          | some n => readMediaGo rest { st with version := n }
      | .targetDuration =>
        match not_newline i with
        | none => .error .nomError
        | some (_, dur) =>
          match parse_u8 dur with
          | none => .error .parseIntError
          | some n => readMediaGo rest { st with target_duration := n }
      | .mediaSequence =>
        match not_newline i with
        | none => .error .nomError
        | some (_, seq) =>
          match parse_u32 seq with
          | none => .error .parseIntError
          | some n => readMediaGo rest { st with media_sequence := n }
      | .discontinuity =>
        readMediaGo rest { st with
          ext_infos := st.ext_infos ++ [⟨.discontinuity, []⟩] }

/-- Model of `read_media_list`. -/
def read_media_list (data : List Char) : Except M3U8Err MediaList :=
  match ext_identifier data with
  | none => .error .nomError
  | some i => (readMediaGo (linesOf i) initMState).map MState.toMediaList

/-! ## MediaList::save -/

/-- Model of `rejoin_attributes`: a key literally equal to `UNKNOWN`
contributes its raw value, every other key contributes `key=value`; the
pieces are joined with commas in map order. -/
def rejoin_attributes (m : AttrMap) : List Char :=
  let pieces := m.map (fun p =>
    if p.1 = "UNKNOWN".data then p.2 else p.1 ++ [ '=' ] ++ p.2)
  (pieces.intersperse [ ',' ]).flatten

/-- The line(s) emitted by `save` for one stored ext-entry. -/
def extEntryLines (e : MediaExtInfo) : List (List Char) :=
  match e.ext_type with
  | .inf => []
  | .programDateTime => []
  | .discontinuity => [ "#EXT-X-".data ++ mediaExtTypeShow .discontinuity ]
  | t => [ "#EXT-X-".data ++ mediaExtTypeShow t ++ [ ':' ] ++
           rejoin_attributes e.attributes ]

/-- The lines emitted by `save` for one media segment: an optional
program-date-time line, the `#EXTINF` line and the URI line (the source
emits the last two with a single `writeln!` whose format string contains
an embedded newline). -/
def segmentLines (s : MediaSegment) : List (List Char) :=
  (match s.program_date_time with
   | some pd => [ "#EXT-X-".data ++ mediaExtTypeShow .programDateTime ++
                  [ ':' ] ++ pd ]
   | none => []) ++
  [ "#EXT".data ++ mediaExtTypeShow .inf ++ [ ':' ] ++
      format3 s.duration ++ [ ',' ] ++ (s.title.getD []),
    s.uri ]

/-- All lines written by `save` after the `#EXTM3U` header. -/
def saveLines (m : MediaList) : List (List Char) :=
  [ "#EXT-X-VERSION:".data ++ natDigits m.version,
    "#EXT-X-TARGETDURATION:".data ++ natDigits m.target_duration,
    "#EXT-X-MEDIA-SEQUENCE:".data ++ natDigits m.media_sequence ] ++
  m.ext_infos.flatMap extEntryLines ++
  m.media_segments.flatMap segmentLines

/-- Terminate every line with a newline and concatenate, as the
`writeln!` calls of `save` do. -/
def joinNl (ls : List (List Char)) : List Char :=
  ls.flatMap (fun l => l ++ [ '\n' ])

/-- Model of `MediaList::save` writing to a sink that accepts every
write: the full emitted text. -/
def saveChars (m : MediaList) : List Char :=
  extHeader ++ joinNl (saveLines m)


/-! ## Basic helper lemmas -/

theorem isPrefixOf_self_append (l r : List Char) : l.isPrefixOf (l ++ r) = true := by
  induction l with
  | nil => simp [List.isPrefixOf]
  | cons c cs ih => simp [List.isPrefixOf, ih]

theorem takeWhile_append_stop (p : Char → Bool) (l r : List Char)
    (hl : ∀ c ∈ l, p c = true)
    (hr : ∀ c rs, r = c :: rs → p c = false) :
    (l ++ r).takeWhile p = l := by
  induction l with
  | nil =>
    cases r with
    | nil => rfl
    | cons c rs => simp [List.takeWhile, hr c rs rfl]
  | cons c cs ih =>
    have hc : p c = true := hl c (by simp)
    simp only [List.cons_append, List.takeWhile_cons, hc, if_true]
    rw [ih (fun x hx => hl x (by simp [hx]))]

theorem takeWhile_all (p : Char → Bool) (l : List Char)
    (hl : ∀ c ∈ l, p c = true) : l.takeWhile p = l := by
  have := takeWhile_append_stop p l [] hl (by intro c rs h; cases h)
  simpa using this

/-- `isNotC` on a string made of a clean run followed by the stop
character. -/
theorem isNotC_append_stop (bad : Char) (l r : List Char)
    (hne : l ≠ []) (hl : ∀ c ∈ l, c ≠ bad) :
    isNotC bad (l ++ bad :: r) = some (bad :: r, l) := by
  have ht : (l ++ bad :: r).takeWhile (fun c => c != bad) = l := by
    apply takeWhile_append_stop
    · intro c hc
      simp [bne_iff_ne, hl c hc]
    · intro c rs h
      cases h
      simp
  simp only [isNotC, ht]
  rw [if_neg (by simpa [List.isEmpty_iff] using hne)]
  rw [List.drop_left]

/-- `isNotC` when the stop character does not occur at all. -/
theorem isNotC_all (bad : Char) (l : List Char)
    (hne : l ≠ []) (hl : ∀ c ∈ l, c ≠ bad) :
    isNotC bad l = some ([], l) := by
  have ht : l.takeWhile (fun c => c != bad) = l := by
    apply takeWhile_all
    intro c hc
    simp [bne_iff_ne, hl c hc]
  simp only [isNotC, ht]
  rw [if_neg (by simpa [List.isEmpty_iff] using hne)]
  simp

theorem isNotC_nil (bad : Char) : isNotC bad [] = none := rfl

/-- `isNotC` fails on input starting with the stop character. -/
theorem isNotC_stop_head (bad : Char) (r : List Char) : isNotC bad (bad :: r) = none := by
  simp [isNotC, List.takeWhile_cons]

theorem ext_identifier_append (r : List Char) :
    ext_identifier (extHeader ++ r) = some r := by
  simp only [ext_identifier, isPrefixOf_self_append, if_true, List.drop_left]

/-- `ext_type_raw` on a line whose tag name is terminated by a colon. -/
theorem ext_type_raw_colon (name rest : List Char)
    (hne : name ≠ []) (hname : ∀ c ∈ name, c ≠ ':') :
    ext_type_raw ("#EXT".data ++ name ++ ':' :: rest) = some (rest, name) := by
  have h1 : ("#EXT".data).isPrefixOf ("#EXT".data ++ (name ++ ':' :: rest)) = true :=
    isPrefixOf_self_append _ _
  simp only [ext_type_raw, List.append_assoc, h1, if_true, List.drop_left]
  rw [isNotC_append_stop ':' name rest hne hname]
  rfl

/-- `ext_type_raw` on a line whose remainder after `#EXT` has no colon (and
no newline): the whole remainder is the tag name and the leftover input is
empty. -/
theorem ext_type_raw_no_colon (rest : List Char)
    (hne : rest ≠ []) (hc : ∀ c ∈ rest, c ≠ ':') (hn : ∀ c ∈ rest, c ≠ '\n') :
    ext_type_raw ("#EXT".data ++ rest) = some ([], rest) := by
  have h1 : ("#EXT".data).isPrefixOf ("#EXT".data ++ rest) = true :=
    isPrefixOf_self_append _ _
  simp only [ext_type_raw, h1, if_true, List.drop_left]
  rw [isNotC_all ':' rest hne hc]
  have hnn : not_newline rest = some ([], rest) := by
    simp only [not_newline]
    exact isNotC_all '\n' rest hne hn
  simp only [hnn]


/-! ## Step lemmas for the `read_media_list` loop -/

theorem readMediaGo_nil (st : MState) : readMediaGo [] st = .ok st := rfl

theorem readMediaGo_bad_line (line : List Char) (rest : List (List Char)) (st : MState)
    (h : ext_type_raw line = none) :
    readMediaGo (line :: rest) st = .error .nomError := by
  simp [readMediaGo, h]

theorem readMediaGo_dateRange (line : List Char) (rest : List (List Char)) (st : MState)
    (i raw : List Char) (h1 : ext_type_raw line = some (i, raw))
    (h2 : mediaExtTypeFrom raw = .dateRange) :
    readMediaGo (line :: rest) st =
      readMediaGo rest { st with
        ext_infos := st.ext_infos ++ [⟨.dateRange, (attributes i).2⟩] } := by
  simp [readMediaGo, h1, h2]

theorem readMediaGo_unknown (line : List Char) (rest : List (List Char)) (st : MState)
    (i raw nm us l : List Char) (h1 : ext_type_raw line = some (i, raw))
    (h2 : mediaExtTypeFrom raw = .unknown nm)
    (h3 : not_newline i = some (l, us)) :
    readMediaGo (line :: rest) st =
      readMediaGo rest { st with
        ext_infos := st.ext_infos ++ [⟨.unknown nm, [( "UNKNOWN".data, us )]⟩] } := by
  simp [readMediaGo, h1, h2, h3]

theorem readMediaGo_pdt (line : List Char) (rest : List (List Char)) (st : MState)
    (i raw pd l : List Char) (h1 : ext_type_raw line = some (i, raw))
    (h2 : mediaExtTypeFrom raw = .programDateTime)
    (h3 : not_newline i = some (l, pd)) :
    readMediaGo (line :: rest) st =
      readMediaGo rest { st with current_program_date_time := some pd } := by
  simp [readMediaGo, h1, h2, h3]

theorem readMediaGo_discontinuity (line : List Char) (rest : List (List Char)) (st : MState)
    (i raw : List Char) (h1 : ext_type_raw line = some (i, raw))
    (h2 : mediaExtTypeFrom raw = .discontinuity) :
    readMediaGo (line :: rest) st =
      readMediaGo rest { st with
        ext_infos := st.ext_infos ++ [⟨.discontinuity, []⟩] } := by
  simp [readMediaGo, h1, h2]

theorem readMediaGo_version (line : List Char) (rest : List (List Char)) (st : MState)
    (i raw v l : List Char) (h1 : ext_type_raw line = some (i, raw))
    (h2 : mediaExtTypeFrom raw = .version)
    (h3 : not_newline i = some (l, v)) :
    readMediaGo (line :: rest) st =
      match parse_u8 v with
      | none => .error .parseIntError
      | some n => readMediaGo rest { st with version := n } := by
  simp [readMediaGo, h1, h2, h3]

theorem readMediaGo_targetDuration (line : List Char) (rest : List (List Char)) (st : MState)
    (i raw v l : List Char) (h1 : ext_type_raw line = some (i, raw))
    (h2 : mediaExtTypeFrom raw = .targetDuration)
    (h3 : not_newline i = some (l, v)) :
    readMediaGo (line :: rest) st =
      match parse_u8 v with
      | none => .error .parseIntError
      | some n => readMediaGo rest { st with target_duration := n } := by
  simp [readMediaGo, h1, h2, h3]

theorem readMediaGo_mediaSequence (line : List Char) (rest : List (List Char)) (st : MState)
    (i raw v l : List Char) (h1 : ext_type_raw line = some (i, raw))
    (h2 : mediaExtTypeFrom raw = .mediaSequence)
    (h3 : not_newline i = some (l, v)) :
    readMediaGo (line :: rest) st =
      match parse_u32 v with
      | none => .error .parseIntError
      | some n => readMediaGo rest { st with media_sequence := n } := by
  simp [readMediaGo, h1, h2, h3]

theorem readMediaGo_inf_last (line : List Char) (st : MState)
    (i raw l durText titText : List Char) (h1 : ext_type_raw line = some (i, raw))
    (h2 : mediaExtTypeFrom raw = .inf)
    (h3 : comma_sep_pair i = some (l, (durText, titText))) :
    readMediaGo [line] st = .ok st := by
  simp [readMediaGo, h1, h2, h3]

theorem readMediaGo_inf_uri (line uri : List Char) (rest : List (List Char)) (st : MState)
    (i raw l durText titText : List Char) (h1 : ext_type_raw line = some (i, raw))
    (h2 : mediaExtTypeFrom raw = .inf)
    (h3 : comma_sep_pair i = some (l, (durText, titText))) :
    readMediaGo (line :: uri :: rest) st =
      match parse_f64 durText with
      | none => .error .parseFloatError
      | some d =>
        readMediaGo rest { st with
          media_segments := st.media_segments ++
            [{ duration := d
               title := if titText = [] then none else some titText
               uri := uri
               program_date_time := st.current_program_date_time }]
          current_program_date_time := none } := by
  simp [readMediaGo, h1, h2, h3]

theorem readMediaGo_inf_bad_pair (line : List Char) (rest : List (List Char)) (st : MState)
    (i raw : List Char) (h1 : ext_type_raw line = some (i, raw))
    (h2 : mediaExtTypeFrom raw = .inf)
    (h3 : comma_sep_pair i = none) :
    readMediaGo (line :: rest) st = .error .nomError := by
  simp [readMediaGo, h1, h2, h3]

/-! ## Step lemmas for the `read_playlist` loop -/

theorem readPlaylistGo_nil (acc : List PlaylistExtInfo) :
    readPlaylistGo [] acc = .ok ⟨acc⟩ := rfl

theorem readPlaylistGo_bad_line (line : List Char) (rest : List (List Char))
    (acc : List PlaylistExtInfo) (h : ext_type_raw line = none) :
    readPlaylistGo (line :: rest) acc = .error .nomError := by
  simp [readPlaylistGo, h]

theorem readPlaylistGo_other (line : List Char) (rest : List (List Char))
    (acc : List PlaylistExtInfo) (i raw : List Char)
    (h1 : ext_type_raw line = some (i, raw))
    (h2 : playlistExtTypeFrom raw ≠ .streamInf) :
    readPlaylistGo (line :: rest) acc =
      readPlaylistGo rest (acc ++ [⟨playlistExtTypeFrom raw, (attributes i).2⟩]) := by
  simp [readPlaylistGo, h1, h2]

theorem readPlaylistGo_streamInf_uri (line uri : List Char) (rest : List (List Char))
    (acc : List PlaylistExtInfo) (i raw : List Char)
    (h1 : ext_type_raw line = some (i, raw))
    (h2 : playlistExtTypeFrom raw = .streamInf) :
    readPlaylistGo (line :: uri :: rest) acc =
      readPlaylistGo rest
        (acc ++ [⟨.streamInf, indexInsert (attributes i).2 ( "URI".data ) uri⟩]) := by
  simp [readPlaylistGo, h1, h2]

theorem readPlaylistGo_streamInf_last (line : List Char)
    (acc : List PlaylistExtInfo) (i raw : List Char)
    (h1 : ext_type_raw line = some (i, raw))
    (h2 : playlistExtTypeFrom raw = .streamInf) :
    readPlaylistGo [line] acc = .ok ⟨acc ++ [⟨.streamInf, (attributes i).2⟩]⟩ := by
  simp [readPlaylistGo, h1, h2]


/-! ## Structure of successful combinator runs -/

theorem takeWhile_drop_decomp (p : Char → Bool) (i : List Char) :
    i.takeWhile p ++ i.drop ((i.takeWhile p).length) = i := by
  induction i with
  | nil => rfl
  | cons c cs ih =>
    by_cases hc : p c = true
    · simp only [List.takeWhile_cons, hc, if_true, List.length_cons, List.drop_succ_cons,
        List.cons_append, List.cons.injEq, true_and]
      exact ih
    · simp only [List.takeWhile_cons, hc]
      simp

theorem drop_takeWhile_shape (p : Char → Bool) (i : List Char) :
    i.drop ((i.takeWhile p).length) = [] ∨
      ∃ c tl, i.drop ((i.takeWhile p).length) = c :: tl ∧ p c = false := by
  induction i with
  | nil => left; rfl
  | cons c cs ih =>
    by_cases hc : p c = true
    · simpa only [List.takeWhile_cons, hc, if_true, List.length_cons, List.drop_succ_cons]
        using ih
    · right
      refine ⟨c, cs, ?_, by simpa using hc⟩
      simp [List.takeWhile_cons, hc]

/-- Everything a successful `isNotC` run tells us: the matched part is a
nonempty run of non-stop characters, the input decomposes as match ++
remainder, and the remainder is empty or starts with the stop
character. -/
theorem isNotC_some_facts (bad : Char) (i after m : List Char)
    (h : isNotC bad i = some (after, m)) :
    m ≠ [] ∧ i = m ++ after ∧ (∀ c ∈ m, c ≠ bad) ∧
      (after = [] ∨ ∃ tl, after = bad :: tl) := by
  simp only [isNotC] at h
  by_cases he : (i.takeWhile (fun c => c != bad)).isEmpty = true
  · rw [if_pos he] at h
    cases h
  · rw [if_neg he] at h
    have hm : m = i.takeWhile (fun c => c != bad) := by
      cases h
      rfl
    have ha : after = i.drop ((i.takeWhile (fun c => c != bad)).length) := by
      cases h
      rfl
    subst hm
    subst ha
    refine ⟨?_, ?_, ?_, ?_⟩
    · intro hnil
      rw [hnil] at he
      simp at he
    · exact (takeWhile_drop_decomp _ i).symm
    · intro c hc
      have := List.mem_takeWhile_imp hc
      simpa [bne_iff_ne] using this
    · rcases drop_takeWhile_shape (fun c => c != bad) i with h0 | ⟨c, tl, h0, hp⟩
      · left
        exact h0
      · right
        refine ⟨tl, ?_⟩
        rw [h0]
        have : c = bad := by simpa [bne_iff_ne] using hp
        rw [this]

theorem isNotC_subset (bad : Char) (i after m : List Char)
    (h : isNotC bad i = some (after, m)) :
    (∀ c ∈ m, c ∈ i) ∧ (∀ c ∈ after, c ∈ i) := by
  obtain ⟨-, hdec, -, -⟩ := isNotC_some_facts bad i after m h
  constructor
  · intro c hc
    rw [hdec]
    exact List.mem_append_left _ hc
  · intro c hc
    rw [hdec]
    exact List.mem_append_right _ hc

/-- On newline-free nonempty input, `not_newline` consumes everything. -/
theorem not_newline_all (rest : List Char) (hne : rest ≠ []) (hnl : '\n' ∉ rest) :
    not_newline rest = some ([], rest) := by
  simp only [not_newline]
  exact isNotC_all '\n' rest hne (fun c hc h => hnl (h ▸ hc))

/-- What a successful `ext_type_raw` run tells us about the raw tag name
and the remainder of a newline-free line. -/
theorem ext_type_raw_facts (line i raw : List Char)
    (hline : '\n' ∉ line) (h : ext_type_raw line = some (i, raw)) :
    raw ≠ [] ∧ (∀ c ∈ raw, c ∈ line) ∧ (∀ c ∈ i, c ∈ line) ∧
      (':' ∉ raw ∨ i = []) := by
  simp only [ext_type_raw] at h
  by_cases hp : ("#EXT".data).isPrefixOf line = true
  case neg =>
    rw [if_neg hp] at h
    cases h
  rw [if_pos hp] at h
  have hsub : ∀ c ∈ line.drop (("#EXT".data).length), c ∈ line :=
    fun c hc => List.drop_subset _ _ hc
  have hnl : '\n' ∉ line.drop (("#EXT".data).length) := fun hc => hline (hsub _ hc)
  revert h
  generalize hrest : line.drop (("#EXT".data).length) = rest at hsub hnl
  intro h
  have hfall : ∀ (hm : (match not_newline rest with
      | some (after2, name2) => some (after2, name2)
      | none => none) = some (i, raw)),
      raw ≠ [] ∧ (∀ c ∈ raw, c ∈ line) ∧ (∀ c ∈ i, c ∈ line) ∧ (':' ∉ raw ∨ i = []) := by
    intro hm
    cases hrne : rest with
    | nil =>
      rw [hrne] at hm
      simp [not_newline, isNotC] at hm
    | cons c cs =>
      rw [not_newline_all rest (by rw [hrne]; simp) hnl] at hm
      simp only [Option.some.injEq, Prod.mk.injEq] at hm
      obtain ⟨hi, hraw⟩ := hm
      refine ⟨by rw [← hraw, hrne]; simp, fun c hc => hsub _ (hraw ▸ hc), ?_, Or.inr hi.symm⟩
      intro c hc
      rw [← hi] at hc
      cases hc
  cases hcolon : isNotC ':' rest with
  | none =>
    rw [hcolon] at h
    exact hfall h
  | some pr =>
    obtain ⟨after, m⟩ := pr
    rw [hcolon] at h
    obtain ⟨hm, hdec, hnot, hshape⟩ := isNotC_some_facts ':' rest after m hcolon
    obtain ⟨hm2, -⟩ := isNotC_subset ':' rest after m hcolon
    rcases hshape with h0 | ⟨tl, htl⟩
    · subst h0
      exact hfall h
    · subst htl
      simp only [Option.some.injEq, Prod.mk.injEq] at h
      obtain ⟨hi, hraw⟩ := h
      refine ⟨by rw [← hraw]; exact hm, fun c hc => hsub _ (hm2 c (hraw ▸ hc)), ?_, ?_⟩
      · intro c hc
        apply hsub
        rw [hdec]
        apply List.mem_append_right
        rw [← hi] at hc
        exact List.mem_cons_of_mem _ hc
      · left
        intro hc
        exact hnot ':' (hraw ▸ hc) rfl

/-- What a successful `comma_sep_pair` run tells us. -/
theorem comma_sep_pair_facts (i l durText titText : List Char)
    (h : comma_sep_pair i = some (l, (durText, titText))) :
    durText ≠ [] ∧ titText ≠ [] ∧ (∀ c ∈ durText, c ∈ i) ∧ (∀ c ∈ titText, c ∈ i) := by
  simp only [comma_sep_pair] at h
  cases h1 : isNotC ',' i with
  | none =>
    rw [h1] at h
    cases h
  | some pr =>
    obtain ⟨after, m⟩ := pr
    rw [h1] at h
    obtain ⟨hmne, hdec, -, -⟩ := isNotC_some_facts ',' i after m h1
    obtain ⟨hmsub, hasub⟩ := isNotC_subset ',' i after m h1
    cases after with
    | nil => cases h
    | cons c r =>
      by_cases hc : c = ','
      · subst hc
        simp only at h
        cases h2 : not_newline r with
        | none =>
          rw [h2] at h
          cases h
        | some pr2 =>
          obtain ⟨after2, m2⟩ := pr2
          rw [h2] at h
          simp only [Option.some.injEq, Prod.mk.injEq] at h
          obtain ⟨-, hd, ht⟩ := h
          obtain ⟨hm2ne, -, -, -⟩ := isNotC_some_facts '\n' r after2 m2 h2
          obtain ⟨hm2sub, -⟩ := isNotC_subset '\n' r after2 m2 h2
          refine ⟨hd ▸ hmne, ht ▸ hm2ne, hd ▸ hmsub, ?_⟩
          intro x hx
          apply hasub
          exact List.mem_cons_of_mem _ (hm2sub x (ht ▸ hx))
      · exfalso
        obtain ⟨-, -, -, hshape⟩ := isNotC_some_facts ',' i (c :: r) m h1
        rcases hshape with h0 | ⟨tl, htl⟩
        · cases h0
        · apply hc
          cases htl
          rfl


/-! ## Attribute parsing: character provenance -/

theorem read_quoted_attribute_subset (i r v : List Char)
    (h : read_quoted_attribute i = some (r, v)) :
    (∀ c ∈ v, c ∈ i) ∧ (∀ c ∈ r, c ∈ i) := by
  unfold read_quoted_attribute at h
  split at h
  case h_2 => cases h
  next r0 =>
    split at h
    case h_2 => cases h
    next after inner h1 =>
      obtain ⟨hsub1, hsub2⟩ := isNotC_subset '"' r0 after inner h1
      split at h
      case h_2 => cases h
      next r2 =>
        simp only [Option.some.injEq, Prod.mk.injEq] at h
        obtain ⟨hr, hv⟩ := h
        constructor
        · intro c hc
          rw [← hv] at hc
          rcases List.mem_cons.mp hc with hc | hc
          · subst hc
            simp
          · rcases List.mem_append.mp hc with hc | hc
            · exact List.mem_cons_of_mem _ (hsub1 c hc)
            · simp at hc
              subst hc
              simp
        · intro c hc
          rw [← hr] at hc
          exact List.mem_cons_of_mem _ (hsub2 c (List.mem_cons_of_mem _ hc))

theorem attribute_key_val_subset (i r k v : List Char)
    (h : attribute_key_val i = some (r, (k, v))) :
    (∀ c ∈ k, c ∈ i) ∧ (∀ c ∈ v, c ∈ i) ∧ (∀ c ∈ r, c ∈ i) := by
  unfold attribute_key_val at h
  split at h
  next => cases h
  next after key h1 =>
    obtain ⟨hsub1, hsub2⟩ := isNotC_subset '=' i after key h1
    split at h
    next r1 =>
      have hr1 : ∀ c ∈ r1, c ∈ i := fun c hc => hsub2 c (List.mem_cons_of_mem _ hc)
      split at h
      next r2 v2 h2 =>
        obtain ⟨hq1, hq2⟩ := read_quoted_attribute_subset r1 r2 v2 h2
        simp only [Option.some.injEq, Prod.mk.injEq] at h
        obtain ⟨hr, hk, hv⟩ := h
        exact ⟨fun c hc => hsub1 c (hk ▸ hc), fun c hc => hr1 c (hq1 c (hv ▸ hc)),
          fun c hc => hr1 c (hq2 c (hr ▸ hc))⟩
      next h2 =>
        split at h
        next r2 v2 h3 =>
          obtain ⟨hn1, hn2⟩ := isNotC_subset ',' r1 r2 v2 h3
          simp only [Option.some.injEq, Prod.mk.injEq] at h
          obtain ⟨hr, hk, hv⟩ := h
          exact ⟨fun c hc => hsub1 c (hk ▸ hc), fun c hc => hr1 c (hn1 c (hv ▸ hc)),
            fun c hc => hr1 c (hn2 c (hr ▸ hc))⟩
        next => cases h
    next => cases h

theorem attrListAux_subset (fuel : Nat) (i : List Char)
    (acc : List (List Char × List Char))
    (P : Char → Prop) (hi : ∀ c ∈ i, P c)
    (hacc : ∀ kv ∈ acc, (∀ c ∈ kv.1, P c) ∧ ∀ c ∈ kv.2, P c) :
    ∀ kv ∈ (attrListAux fuel i acc).2, (∀ c ∈ kv.1, P c) ∧ ∀ c ∈ kv.2, P c := by
  induction fuel generalizing i acc with
  | zero =>
    intro kv hkv
    simp only [attrListAux, List.mem_reverse] at hkv
    exact hacc kv hkv
  | succ fuel ih =>
    intro kv hkv
    simp only [attrListAux] at hkv
    split at hkv
    next r =>
      have hr : ∀ c ∈ r, P c := fun c hc => hi c (List.mem_cons_of_mem _ hc)
      split at hkv
      next r2 kv2 h2 =>
        obtain ⟨h2k, h2v, h2r⟩ := attribute_key_val_subset r r2 kv2.1 kv2.2 h2
        refine ih r2 (kv2 :: acc) (fun c hc => hr c (h2r c hc)) ?_ kv hkv
        intro kv3 hkv3
        rcases List.mem_cons.mp hkv3 with hkv3 | hkv3
        · subst hkv3
          exact ⟨fun c hc => hr c (h2k c hc), fun c hc => hr c (h2v c hc)⟩
        · exact hacc kv3 hkv3
      next =>
        simp only [List.mem_reverse] at hkv
        exact hacc kv hkv
    next =>
      simp only [List.mem_reverse] at hkv
      exact hacc kv hkv

theorem attrList_subset (i : List Char) (P : Char → Prop) (hi : ∀ c ∈ i, P c) :
    ∀ kv ∈ (attrList i).2, (∀ c ∈ kv.1, P c) ∧ ∀ c ∈ kv.2, P c := by
  unfold attrList
  split
  next => intro kv hkv; cases hkv
  next r kv0 h0 =>
    obtain ⟨h0k, h0v, h0r⟩ := attribute_key_val_subset i r kv0.1 kv0.2 h0
    refine attrListAux_subset r.length r [kv0] P (fun c hc => hi c (h0r c hc)) ?_
    intro kv hkv
    rcases List.mem_cons.mp hkv with hkv | hkv
    · subst hkv
      exact ⟨fun c hc => hi c (h0k c hc), fun c hc => hi c (h0v c hc)⟩
    · cases hkv

theorem indexInsert_pred (m : AttrMap) (k v : List Char)
    (Q : List Char × List Char → Prop)
    (hOK : ∀ p ∈ m, Q p) (hkv : Q (k, v))
    (hswap : ∀ p ∈ m, Q (p.1, v)) :
    ∀ p ∈ indexInsert m k v, Q p := by
  intro p hp
  unfold indexInsert at hp
  split at hp
  · rcases List.mem_map.mp hp with ⟨q, hq, hpq⟩
    by_cases hqk : q.1 = k
    · rw [if_pos hqk] at hpq
      subst hpq
      exact hswap q hq
    · rw [if_neg hqk] at hpq
      subst hpq
      exact hOK q hq
  · rcases List.mem_append.mp hp with hp | hp
    · exact hOK p hp
    · simp only [List.mem_singleton] at hp
      subst hp
      exact hkv

theorem attributes_pred (i : List Char) (P : Char → Prop) (hi : ∀ c ∈ i, P c) :
    ∀ kv ∈ (attributes i).2, (∀ c ∈ kv.1, P c) ∧ ∀ c ∈ kv.2, P c := by
  have hraw := attrList_subset i P hi
  unfold attributes
  have hgen : ∀ (l : List (List Char × List Char)) (m0 : AttrMap),
      (∀ kv ∈ l, (∀ c ∈ kv.1, P c) ∧ ∀ c ∈ kv.2, P c) →
      (∀ kv ∈ m0, (∀ c ∈ kv.1, P c) ∧ ∀ c ∈ kv.2, P c) →
      ∀ kv ∈ l.foldl (fun m kv => indexInsert m kv.1 kv.2) m0,
        (∀ c ∈ kv.1, P c) ∧ ∀ c ∈ kv.2, P c := by
    intro l
    induction l with
    | nil => intro m0 _ hm0; simpa using hm0
    | cons kv0 l ih =>
      intro m0 hl hm0
      simp only [List.foldl_cons]
      apply ih
      · intro kv hkv
        exact hl kv (List.mem_cons_of_mem _ hkv)
      · have h0 := hl kv0 (by simp)
        apply indexInsert_pred m0 kv0.1 kv0.2 _ hm0 h0
        intro p hp
        exact ⟨(hm0 p hp).1, h0.2⟩
  exact hgen (attrList i).2 [] hraw (by intro kv h; cases h)

/-! ## `stripDashX` and tag-kind facts -/

theorem stripDashX_eq_self (l : List Char)
    (h : ∀ rest, l ≠ '-' :: 'X' :: '-' :: rest) : stripDashX l = l := by
  rw [stripDashX.eq_def]
  split
  next rest => exact absurd rfl (h rest)
  next => rfl

theorem stripDashX_sublist (l : List Char) : ∀ c ∈ stripDashX l, c ∈ l := by
  induction l using stripDashX.induct with
  | case1 rest ih =>
    intro c hc
    rw [show stripDashX ('-' :: 'X' :: '-' :: rest) = stripDashX rest from rfl] at hc
    exact List.mem_cons_of_mem _ (List.mem_cons_of_mem _ (List.mem_cons_of_mem _ (ih c hc)))
  | case2 l h =>
    intro c hc
    rwa [stripDashX_eq_self l (fun rest hr => h rest hr)] at hc


/-! ## Decimal rendering round-trips through decimal parsing -/

theorem digitChar_isDigit (n : Nat) (h : n < 10) : (digitChar n).isDigit = true := by
  interval_cases n <;> decide

theorem digitVal_digitChar (n : Nat) (h : n < 10) : digitVal (digitChar n) = n := by
  interval_cases n <;> decide

theorem valFrom_append (init : Nat) (a b : List Char) :
    valFrom init (a ++ b) = valFrom (valFrom init a) b :=
  List.foldl_append _ _ _ _

theorem valFrom_cons (init : Nat) (c : Char) (l : List Char) :
    valFrom init (c :: l) = valFrom (10 * init + digitVal c) l := rfl

theorem natDigitsAux_spec (fuel : Nat) : ∀ n acc, 0 < n → n < 10 ^ fuel →
    ∃ ds, natDigitsAux fuel n acc = ds ++ acc ∧ ds ≠ [] ∧
      (∀ c ∈ ds, c.isDigit = true) ∧
      (∀ init, valFrom init ds = init * 10 ^ ds.length + n) ∧
      10 ^ (ds.length - 1) ≤ n := by
  induction fuel with
  | zero =>
    intro n acc hpos hlt
    simp only [pow_zero] at hlt
    omega
  | succ fuel ih =>
    intro n acc hpos hlt
    rw [natDigitsAux, if_neg (by omega)]
    by_cases hq : n / 10 = 0
    · have hn10 : n < 10 := by omega
      have hm : n % 10 = n := Nat.mod_eq_of_lt hn10
      refine ⟨[digitChar (n % 10)], ?_, by simp, ?_, ?_, by simpa using hpos⟩
      · cases fuel with
        | zero => simp [natDigitsAux, hq]
        | succ f => simp [natDigitsAux, hq]
      · intro c hc
        simp only [List.mem_singleton] at hc
        subst hc
        exact digitChar_isDigit _ (Nat.mod_lt _ (by omega))
      · intro init
        rw [hm]
        simp [valFrom_cons, valFrom, digitVal_digitChar n hn10, hm]
        ring
    · have hqpos : 0 < n / 10 := Nat.pos_of_ne_zero hq
      have hqlt : n / 10 < 10 ^ fuel := by
        rw [Nat.div_lt_iff_lt_mul (by omega)]
        calc n < 10 ^ (fuel + 1) := hlt
        _ = 10 ^ fuel * 10 := by ring
      obtain ⟨ds', heq, hne, hdig, hval, hlow⟩ :=
        ih (n / 10) (digitChar (n % 10) :: acc) hqpos hqlt
      refine ⟨ds' ++ [digitChar (n % 10)], by rw [heq]; simp, by simp, ?_, ?_, ?_⟩
      · intro c hc
        rcases List.mem_append.mp hc with hc | hc
        · exact hdig c hc
        · simp only [List.mem_singleton] at hc
          subst hc
          exact digitChar_isDigit _ (Nat.mod_lt _ (by omega))
      · intro init
        rw [valFrom_append, hval init]
        have : valFrom (init * 10 ^ ds'.length + n / 10) [digitChar (n % 10)] =
            10 * (init * 10 ^ ds'.length + n / 10) + n % 10 := by
          simp [valFrom_cons, valFrom, digitVal_digitChar _ (Nat.mod_lt _ (by omega))]
        rw [this]
        have hnm : 10 * (n / 10) + n % 10 = n := by omega
        simp only [List.length_append, List.length_singleton]
        ring_nf
        omega
      · have h1 : 1 ≤ ds'.length := by
          cases ds' with
          | nil => exact absurd rfl hne
          | cons a b => simp
        have h2 : (ds' ++ [digitChar (n % 10)]).length - 1 = ds'.length := by
          simp
        rw [h2]
        calc 10 ^ ds'.length = 10 ^ (ds'.length - 1 + 1) := by
              congr 1
              omega
        _ = 10 ^ (ds'.length - 1) * 10 := by ring
        _ ≤ (n / 10) * 10 := by
              exact Nat.mul_le_mul_right 10 hlow
        _ ≤ n := by omega

theorem natDigits_spec (n : Nat) :
    natDigits n ≠ [] ∧ (∀ c ∈ natDigits n, c.isDigit = true) ∧
      valFrom 0 (natDigits n) = n := by
  by_cases h0 : n = 0
  · subst h0
    refine ⟨by decide, ?_, by decide⟩
    intro c hc
    have he : natDigits 0 = [ '0' ] := by decide
    rw [he, List.mem_singleton] at hc
    subst hc
    decide
  · have hpos : 0 < n := Nat.pos_of_ne_zero h0
    obtain ⟨ds, heq, hne, hdig, hval, -⟩ :=
      natDigitsAux_spec n n [] hpos (Nat.lt_pow_self (by omega) n)
    rw [natDigits, if_neg h0, heq]
    simp only [List.append_nil]
    refine ⟨hne, hdig, ?_⟩
    rw [hval 0]
    simp

theorem natDigits_length_le (n k : Nat) (hk : 1 ≤ k) (h : n < 10 ^ k) :
    (natDigits n).length ≤ k := by
  by_cases h0 : n = 0
  · subst h0
    simpa [natDigits] using hk
  · have hpos : 0 < n := Nat.pos_of_ne_zero h0
    obtain ⟨ds, heq, hne, -, -, hlow⟩ :=
      natDigitsAux_spec n n [] hpos (Nat.lt_pow_self (by omega) n)
    rw [natDigits, if_neg h0, heq]
    simp only [List.append_nil]
    by_contra hgt
    push_neg at hgt
    have : 10 ^ k ≤ 10 ^ (ds.length - 1) :=
      Nat.pow_le_pow_right (by omega) (by omega)
    omega

theorem parseDigits_natDigits (n : Nat) : parseDigits (natDigits n) = some n := by
  obtain ⟨hne, hdig, hval⟩ := natDigits_spec n
  simp only [parseDigits, List.all_eq_true]
  rw [if_pos ⟨hne, hdig⟩, hval]

theorem stripPlus_digits (l : List Char) (h : ∀ c ∈ l, c.isDigit = true) :
    stripPlus l = l := by
  cases l with
  | nil => rfl
  | cons c cs =>
    have hd := h c (by simp)
    simp only [stripPlus]
    split
    next r heq =>
      exfalso
      injection heq with h1 h2
      rw [h1] at hd
      simp at hd
    next => rfl

theorem parse_u8_natDigits (n : Nat) (h : n < 256) : parse_u8 (natDigits n) = some n := by
  obtain ⟨-, hdig, -⟩ := natDigits_spec n
  simp only [parse_u8, stripPlus_digits _ hdig, parseDigits_natDigits, if_pos h]

theorem parse_u32_natDigits (n : Nat) (h : n < 4294967296) :
    parse_u32 (natDigits n) = some n := by
  obtain ⟨-, hdig, -⟩ := natDigits_spec n
  simp only [parse_u32, stripPlus_digits _ hdig, parseDigits_natDigits, if_pos h]

theorem parse_u8_lt (s : List Char) (n : Nat) (h : parse_u8 s = some n) : n < 256 := by
  simp only [parse_u8] at h
  split at h
  · split at h
    · injection h with h1
      omega
    · cases h
  · cases h

theorem parse_u32_lt (s : List Char) (n : Nat) (h : parse_u32 s = some n) :
    n < 4294967296 := by
  simp only [parse_u32] at h
  split at h
  · split at h
    · injection h with h1
      omega
    · cases h
  · cases h


/-! ## `{:.3}` formatting round-trips through `parse_f64` -/

theorem pad3_digits (ds : List Char) (h : ∀ c ∈ ds, c.isDigit = true) :
    ∀ c ∈ pad3 ds, c.isDigit = true := by
  intro c hc
  rcases List.mem_append.mp hc with hc | hc
  · have := List.eq_of_mem_replicate hc
    subst this
    decide
  · exact h c hc

theorem pad3_length (ds : List Char) (h : ds.length ≤ 3) : (pad3 ds).length = 3 := by
  simp only [pad3, List.length_append, List.length_replicate]
  omega

theorem valFrom_replicate_zero (init k : Nat) :
    valFrom init (List.replicate k '0') = init * 10 ^ k := by
  induction k generalizing init with
  | zero => simp [valFrom]
  | succ k ih =>
    rw [List.replicate_succ, valFrom_cons, ih]
    have : digitVal '0' = 0 := by decide
    rw [this]
    ring

theorem valFrom_natDigits (init y : Nat) :
    valFrom init (natDigits y) = init * 10 ^ (natDigits y).length + y := by
  by_cases h0 : y = 0
  · subst h0
    have he : natDigits 0 = [ '0' ] := by decide
    rw [he]
    simp [valFrom_cons, valFrom]
    have : digitVal '0' = 0 := by decide
    omega
  · have hpos : 0 < y := Nat.pos_of_ne_zero h0
    obtain ⟨ds, heq, -, -, hval, -⟩ :=
      natDigitsAux_spec y y [] hpos (Nat.lt_pow_self (by omega) y)
    rw [natDigits, if_neg h0, heq]
    simp only [List.append_nil]
    exact hval init

theorem valFrom_pad3_natDigits (x y : Nat) (hy : y < 1000) :
    valFrom x (pad3 (natDigits y)) = x * 1000 + y := by
  have hlen : (natDigits y).length ≤ 3 :=
    natDigits_length_le y 3 (by omega) (by norm_num; omega)
  simp only [pad3]
  rw [valFrom_append, valFrom_replicate_zero, valFrom_natDigits]
  have : 10 ^ (3 - (natDigits y).length) * 10 ^ (natDigits y).length = 1000 := by
    rw [← pow_add]
    have : 3 - (natDigits y).length + (natDigits y).length = 3 := by omega
    rw [this]
    norm_num
  rw [mul_assoc, this]

theorem format3_chars (q : Rat) :
    ∀ c ∈ format3 q, c.isDigit = true ∨ c = '-' ∨ c = '.' := by
  intro c hc
  simp only [format3, List.append_assoc, List.mem_append] at hc
  rcases hc with hc | hc | hc | hc
  · right
    left
    split at hc
    · simpa using hc
    · cases hc
  · exact Or.inl ((natDigits_spec _).2.1 c hc)
  · simp only [List.mem_singleton] at hc
    exact Or.inr (Or.inr hc)
  · exact Or.inl (pad3_digits _ ((natDigits_spec _).2.1) c hc)

theorem format3_no_comma (q : Rat) : ',' ∉ format3 q := by
  intro h
  rcases format3_chars q ',' h with h | h | h <;> simp at h

theorem format3_no_newline (q : Rat) : '\n' ∉ format3 q := by
  intro h
  rcases format3_chars q '\n' h with h | h | h <;> simp at h

theorem format3_no_cr (q : Rat) : '\r' ∉ format3 q := by
  intro h
  rcases format3_chars q '\r' h with h | h | h <;> simp at h

theorem format3_ne_nil (q : Rat) : format3 q ≠ [] := by
  simp only [format3]
  intro h
  rcases List.append_eq_nil.mp h with ⟨h1, h2⟩
  rcases List.append_eq_nil.mp h1 with ⟨h3, h4⟩
  rcases List.append_eq_nil.mp h3 with ⟨-, h5⟩
  exact (natDigits_spec _).1 h5

/-- The computation of `parse_f64_body` on the unsigned part of a
`{:.3}`-formatted value. -/
theorem parse_f64_body_format3 (neg : Bool) (a : Nat) :
    parse_f64_body neg
      (natDigits (a / 1000) ++ [ '.' ] ++ pad3 (natDigits (a % 1000))) =
      some (decValue neg a 3 true 0) := by
  have hfrac : a % 1000 < 1000 := Nat.mod_lt _ (by omega)
  have hdigInt : ∀ c ∈ natDigits (a / 1000), c.isDigit = true :=
    (natDigits_spec _).2.1
  have hdigFrac : ∀ c ∈ pad3 (natDigits (a % 1000)), c.isDigit = true :=
    pad3_digits _ ((natDigits_spec _).2.1)
  have hlenFrac : (pad3 (natDigits (a % 1000))).length = 3 :=
    pad3_length _ (natDigits_length_le _ 3 (by omega) (by norm_num; omega))
  have hbody2 : natDigits (a / 1000) ++ [ '.' ] ++ pad3 (natDigits (a % 1000)) =
      natDigits (a / 1000) ++ ('.' :: pad3 (natDigits (a % 1000))) := by
    simp
  have htake : (natDigits (a / 1000) ++
      ('.' :: pad3 (natDigits (a % 1000)))).takeWhile (fun c => c.isDigit) =
      natDigits (a / 1000) := by
    apply takeWhile_append_stop
    · exact hdigInt
    · intro c rs h
      injection h with h1 h2
      rw [← h1]
      decide
  have hne : natDigits (a / 1000) ≠ [] := (natDigits_spec _).1
  rw [hbody2]
  simp only [parse_f64_body, htake, List.drop_left]
  rw [takeWhile_all _ _ hdigFrac, List.drop_length]
  rw [if_neg (by simp [hne])]
  have hmant : valFrom (valFrom 0 (natDigits (a / 1000))) (pad3 (natDigits (a % 1000))) = a := by
    rw [(natDigits_spec _).2.2, valFrom_pad3_natDigits _ _ hfrac]
    omega
  rw [hmant, hlenFrac]
  rfl

/-- Re-parsing a `{:.3}`-formatted duration yields exactly the duration
rounded to three decimal places. -/
theorem parse_f64_format3 (q : Rat) : parse_f64 (format3 q) = some (roundDur3 q) := by
  have hval : ∀ neg : Bool, (if neg then -(((ratRound3 q).natAbs : Nat) : Int)
      else (((ratRound3 q).natAbs : Nat) : Int)) = ratRound3 q →
      decValue neg (ratRound3 q).natAbs 3 true 0 = roundDur3 q := by
    intro neg hsign
    simp only [decValue, if_pos rfl, roundDur3]
    rw [hsign]
    norm_num
  by_cases hneg : ratRound3 q < 0
  · have hf : format3 q = '-' ::
        (natDigits ((ratRound3 q).natAbs / 1000) ++ [ '.' ] ++
          pad3 (natDigits ((ratRound3 q).natAbs % 1000))) := by
      simp only [format3, if_pos hneg]
      simp
    rw [hf]
    show parse_f64_body true _ = _
    rw [parse_f64_body_format3]
    congr 1
    apply hval
    simp only [if_pos]
    omega
  · have hf : format3 q =
        natDigits ((ratRound3 q).natAbs / 1000) ++ [ '.' ] ++
          pad3 (natDigits ((ratRound3 q).natAbs % 1000)) := by
      simp only [format3, if_neg hneg]
      simp
    rw [hf]
    cases hnd : natDigits ((ratRound3 q).natAbs / 1000) with
    | nil => exact absurd hnd (natDigits_spec _).1
    | cons d ds =>
      have hd : d.isDigit = true := by
        apply (natDigits_spec ((ratRound3 q).natAbs / 1000)).2.1
        rw [hnd]
        simp
      have hdp : d ≠ '+' := by
        intro h
        rw [h] at hd
        simp at hd
      have hdm : d ≠ '-' := by
        intro h
        rw [h] at hd
        simp at hd
      have hshape : (d :: ds) ++ [ '.' ] ++
          pad3 (natDigits ((ratRound3 q).natAbs % 1000)) =
          d :: (ds ++ [ '.' ] ++ pad3 (natDigits ((ratRound3 q).natAbs % 1000))) := by
        simp
      rw [hshape]
      have hstep : parse_f64 (d :: (ds ++ [ '.' ] ++
          pad3 (natDigits ((ratRound3 q).natAbs % 1000)))) =
          parse_f64_body false (d :: (ds ++ [ '.' ] ++
            pad3 (natDigits ((ratRound3 q).natAbs % 1000)))) := by
        simp only [parse_f64]
        split
        next heq =>
          exfalso
          injection heq with h1 h2
          exact hdp h1
        next heq =>
          exfalso
          injection heq with h1 h2
          exact hdm h1
        next => rfl
      rw [hstep, ← hshape, ← hnd, parse_f64_body_format3]
      congr 1
      apply hval
      simp only [if_neg Bool.false_ne_true]
      omega


/-! ## `linesOf` of serializer output -/

theorem splitNl_ne_nil (t : List Char) : splitNl t ≠ [] := by
  induction t with
  | nil => simp [splitNl]
  | cons c cs ih =>
    simp only [splitNl]
    split
    · simp
    · cases h : splitNl cs with
      | nil => exact absurd h ih
      | cons l ls => simp

theorem splitNl_append_newline (l r : List Char) (hl : '\n' ∉ l) :
    splitNl (l ++ '\n' :: r) = l :: splitNl r := by
  induction l with
  | nil => simp [splitNl]
  | cons c cs ih =>
    have hc : c ≠ '\n' := fun h => hl (h ▸ List.mem_cons_self c cs)
    have hcs : '\n' ∉ cs := fun h => hl (List.mem_cons_of_mem _ h)
    simp only [List.cons_append, splitNl, if_neg hc, List.append_eq]
    rw [ih hcs]

theorem rstripCr_no_cr (l : List Char) (h : '\r' ∉ l) : rstripCr l = l := by
  unfold rstripCr
  split
  · rfl
  next c r heq =>
    split
    next hc =>
      exfalso
      apply h
      subst hc
      have : '\r' ∈ l.reverse := by
        rw [heq]
        simp
      simpa using this
    next => rfl

theorem map_rstripCr_id : ∀ ls : List (List Char),
    (∀ l ∈ ls, '\r' ∉ l) → List.map rstripCr ls = ls := by
  intro ls
  induction ls with
  | nil => intro h; rfl
  | cons l ls ih =>
    intro h
    simp only [List.map_cons]
    rw [rstripCr_no_cr l (h l (by simp)),
      ih (fun x hx => h x (List.mem_cons_of_mem _ hx))]

/-- `linesOf` recovers exactly the emitted lines from `joinNl` output when
no line contains a newline or ends with a carriage return. -/
theorem linesOf_joinNl (ls : List (List Char))
    (h : ∀ l ∈ ls, '\n' ∉ l ∧ '\r' ∉ l) :
    linesOf (joinNl ls) = ls := by
  have hsplit : splitNl (joinNl ls) = ls ++ [[]] := by
    induction ls with
    | nil => simp [joinNl, splitNl]
    | cons l ls ih =>
      simp only [joinNl, List.flatMap_cons, List.append_assoc, List.singleton_append]
      rw [splitNl_append_newline l _ (h l (by simp)).1]
      have := ih (fun x hx => h x (List.mem_cons_of_mem _ hx))
      simp only [joinNl] at this
      rw [this]
      simp
  unfold linesOf
  rw [hsplit, List.reverse_append]
  simp only [List.reverse_cons, List.reverse_nil, List.nil_append, List.singleton_append,
    List.reverse_reverse]
  have hmap := map_rstripCr_id ls (fun l hl => (h l hl).2)
  simp [hmap]


/-! ## Lines of arbitrary input are newline-free -/

theorem splitNl_mem_facts (t : List Char) :
    ∀ l ∈ splitNl t, '\n' ∉ l ∧ ∀ c ∈ l, c ∈ t := by
  induction t with
  | nil =>
    intro l hl
    simp only [splitNl, List.mem_singleton] at hl
    subst hl
    simp
  | cons c cs ih =>
    intro l hl
    simp only [splitNl] at hl
    split at hl
    · rcases List.mem_cons.mp hl with hl | hl
      · subst hl
        simp
      · obtain ⟨h1, h2⟩ := ih l hl
        exact ⟨h1, fun x hx => List.mem_cons_of_mem _ (h2 x hx)⟩
    · next hc =>
      split at hl
      · next hnil =>
        simp only [List.mem_singleton] at hl
        subst hl
        constructor
        · simp only [List.mem_singleton]
          intro h
          exact hc h.symm
        · intro x hx
          simp only [List.mem_singleton] at hx
          subst hx
          simp
      · next l0 ls hcs =>
        rcases List.mem_cons.mp hl with hl | hl
        · subst hl
          have h0 : l0 ∈ splitNl cs := by
            rw [hcs]
            simp
          obtain ⟨h1, h2⟩ := ih l0 h0
          constructor
          · intro h
            rcases List.mem_cons.mp h with h | h
            · exact hc h.symm
            · exact h1 h
          · intro x hx
            rcases List.mem_cons.mp hx with hx | hx
            · subst hx
              simp
            · exact List.mem_cons_of_mem _ (h2 x hx)
        · have h0 : l ∈ splitNl cs := by
            rw [hcs]
            exact List.mem_cons_of_mem _ hl
          obtain ⟨h1, h2⟩ := ih l h0
          exact ⟨h1, fun x hx => List.mem_cons_of_mem _ (h2 x hx)⟩

theorem rstripCr_subset (l : List Char) : ∀ c ∈ rstripCr l, c ∈ l := by
  intro c hc
  unfold rstripCr at hc
  split at hc
  · exact hc
  next c0 r heq =>
    split at hc
    · have : c ∈ l.reverse := by
        rw [heq]
        exact List.mem_cons_of_mem _ (by simpa using hc)
      simpa using this
    · exact hc

theorem linesOf_mem (t : List Char) :
    ∀ l ∈ linesOf t, '\n' ∉ l ∧ ∀ c ∈ l, c ∈ t := by
  intro l hl
  unfold linesOf at hl
  cases hrev : (splitNl t).reverse with
  | nil =>
    rw [hrev] at hl
    cases hl
  | cons last revInit =>
    rw [hrev] at hl
    dsimp only at hl
    have hmem_init : ∀ x ∈ revInit.reverse, x ∈ splitNl t := by
      intro x hx
      have : x ∈ (splitNl t).reverse := by
        rw [hrev]
        exact List.mem_cons_of_mem _ (by simpa using hx)
      simpa using this
    have hlast : last ∈ splitNl t := by
      have : last ∈ (splitNl t).reverse := by
        rw [hrev]
        simp
      simpa using this
    have hline_of_piece : ∀ p, p ∈ splitNl t → ∀ c ∈ rstripCr p, c ∈ t := by
      intro p hp c hc
      exact (splitNl_mem_facts t p hp).2 c (rstripCr_subset p c hc)
    split at hl
    · rcases List.mem_map.mp hl with ⟨p, hp, hpl⟩
      subst hpl
      refine ⟨fun hn => (splitNl_mem_facts t p (hmem_init p hp)).1 (rstripCr_subset p _ hn),
        hline_of_piece p (hmem_init p hp)⟩
    · rcases List.mem_append.mp hl with hl | hl
      · rcases List.mem_map.mp hl with ⟨p, hp, hpl⟩
        subst hpl
        refine ⟨fun hn => (splitNl_mem_facts t p (hmem_init p hp)).1 (rstripCr_subset p _ hn),
          hline_of_piece p (hmem_init p hp)⟩
      · simp only [List.mem_singleton] at hl
        subst hl
        exact splitNl_mem_facts t l hlast

/-! ## Well-formedness of parsed structures -/

/-- Strings stored by the parser when the input text has no carriage
return: no newline (they come from single lines) and no carriage
return. -/
def cleanStr (l : List Char) : Prop := '\n' ∉ l ∧ '\r' ∉ l

theorem cleanStr_of_subset (l line : List Char) (hs : ∀ c ∈ l, c ∈ line)
    (hc : '\n' ∉ line ∧ '\r' ∉ line) : cleanStr l :=
  ⟨fun h => hc.1 (hs _ h), fun h => hc.2 (hs _ h)⟩

/-- Shape of an ext-entry stored by `read_media_list`. -/
def wfExt (e : MediaExtInfo) : Prop :=
  e.ext_type = .discontinuity ∨
  (e.ext_type = .dateRange ∧ ∀ kv ∈ e.attributes, cleanStr kv.1 ∧ cleanStr kv.2) ∨
  (∃ nm us, e.ext_type = .unknown nm ∧ mediaExtTypeFrom nm = .unknown nm ∧
    cleanStr nm ∧ ':' ∉ nm ∧ e.attributes = [( "UNKNOWN".data, us )] ∧
    us ≠ [] ∧ cleanStr us)

/-- Shape of a media segment stored by `read_media_list`. -/
def wfSeg (s : MediaSegment) : Prop :=
  (∃ tt, s.title = some tt ∧ tt ≠ [] ∧ cleanStr tt) ∧ cleanStr s.uri ∧
  (s.program_date_time = none ∨
    ∃ pd, s.program_date_time = some pd ∧ pd ≠ [] ∧ cleanStr pd)

/-- Shape of the carried program-date-time state. -/
def wfPdt (o : Option (List Char)) : Prop :=
  o = none ∨ ∃ pd, o = some pd ∧ pd ≠ [] ∧ cleanStr pd

/-- Invariant of the `read_media_list` loop state. -/
def wfState (st : MState) : Prop :=
  st.version < 256 ∧ st.target_duration < 256 ∧ st.media_sequence < 4294967296 ∧
  (∀ e ∈ st.ext_infos, wfExt e) ∧ (∀ s ∈ st.media_segments, wfSeg s) ∧
  wfPdt st.current_program_date_time

/-- Well-formedness of a parsed `MediaList`. -/
def wfMediaList (m : MediaList) : Prop :=
  m.version < 256 ∧ m.target_duration < 256 ∧ m.media_sequence < 4294967296 ∧
  (∀ e ∈ m.ext_infos, wfExt e) ∧ ∀ s ∈ m.media_segments, wfSeg s

theorem wfState_push_ext (st : MState) (e : MediaExtInfo)
    (hwf : wfState st) (he : wfExt e) :
    wfState { st with ext_infos := st.ext_infos ++ [e] } := by
  obtain ⟨h1, h2, h3, h4, h5, h6⟩ := hwf
  refine ⟨h1, h2, h3, ?_, h5, h6⟩
  intro x hx
  rcases List.mem_append.mp hx with hx | hx
  · exact h4 x hx
  · simp only [List.mem_singleton] at hx
    subst hx
    exact he

theorem wfState_set_pdt (st : MState) (pd : List Char)
    (hwf : wfState st) (hpd : pd ≠ [] ∧ cleanStr pd) :
    wfState { st with current_program_date_time := some pd } := by
  obtain ⟨h1, h2, h3, h4, h5, h6⟩ := hwf
  exact ⟨h1, h2, h3, h4, h5, Or.inr ⟨pd, rfl, hpd.1, hpd.2⟩⟩

theorem wfState_push_seg (st : MState) (s : MediaSegment)
    (hwf : wfState st) (hs : wfSeg s) :
    wfState { st with media_segments := st.media_segments ++ [s]
                      current_program_date_time := none } := by
  obtain ⟨h1, h2, h3, h4, h5, h6⟩ := hwf
  refine ⟨h1, h2, h3, h4, ?_, Or.inl rfl⟩
  intro x hx
  rcases List.mem_append.mp hx with hx | hx
  · exact h5 x hx
  · simp only [List.mem_singleton] at hx
    subst hx
    exact hs

/-! ## stripDashX and tag-kind classification -/

theorem stripDashX_idem (l : List Char) : stripDashX (stripDashX l) = stripDashX l := by
  induction l using stripDashX.induct with
  | case1 rest ih =>
    rw [show stripDashX ('-' :: 'X' :: '-' :: rest) = stripDashX rest from rfl]
    exact ih
  | case2 l h =>
    simp [stripDashX_eq_self l (fun r hr => h r hr)]

theorem mediaExtTypeFrom_unknown (raw nm : List Char)
    (h : mediaExtTypeFrom raw = .unknown nm) :
    nm = stripDashX raw ∧ mediaExtTypeFrom nm = .unknown nm := by
  have heq : nm = stripDashX raw := by
    simp only [mediaExtTypeFrom] at h
    repeat' split at h
    any_goals cases h
    all_goals rfl
  constructor
  · exact heq
  · have hid : stripDashX nm = nm := by
      rw [heq]
      exact stripDashX_idem raw
    simp only [mediaExtTypeFrom] at h ⊢
    rw [hid]
    rw [← heq] at h
    exact h


/-! ## The parse invariant of `read_media_list` -/

theorem readMediaGo_wf (lines : List (List Char)) (st : MState) :
    (∀ l ∈ lines, '\n' ∉ l ∧ '\r' ∉ l) → wfState st →
    ∀ st', readMediaGo lines st = .ok st' → wfState st' := by
  induction lines, st using readMediaGo.induct with
  | case1 st =>
    intro _ hwf st' hrun
    rw [readMediaGo_nil] at hrun
    injection hrun with h
    exact h ▸ hwf
  | case2 line rest st h1 =>
    intro _ _ st' hrun
    rw [readMediaGo_bad_line line rest st h1] at hrun
    cases hrun
  | case3 line rest st i raw h1 h2 ih =>
    intro hclean hwf st' hrun
    rw [readMediaGo_dateRange line rest st i raw h1 h2] at hrun
    have hline := hclean line (by simp)
    refine ih (fun l hl => hclean l (List.mem_cons_of_mem _ hl)) ?_ st' hrun
    apply wfState_push_ext st _ hwf
    right
    left
    refine ⟨rfl, ?_⟩
    intro kv hkv
    obtain ⟨-, -, hisub, -⟩ := ext_type_raw_facts line i raw hline.1 h1
    have hkv2 := attributes_pred i (fun c => c ∈ line) hisub kv hkv
    exact ⟨cleanStr_of_subset _ line hkv2.1 hline, cleanStr_of_subset _ line hkv2.2 hline⟩
  | case4 line rest st i raw h1 nm h2 h3 =>
    intro _ _ st' hrun
    simp only [readMediaGo, h1, h2, h3] at hrun
    cases hrun
  | case5 line rest st i raw h1 nm h2 l2 us h3 ih =>
    intro hclean hwf st' hrun
    rw [readMediaGo_unknown line rest st i raw nm us l2 h1 h2 h3] at hrun
    have hline := hclean line (by simp)
    obtain ⟨hrawne, hrawsub, hisub, hcolon⟩ := ext_type_raw_facts line i raw hline.1 h1
    obtain ⟨husne, hdec, -, -⟩ := isNotC_some_facts '\n' i l2 us h3
    have hine : i ≠ [] := by
      intro h0
      rw [h0] at h3
      simp [not_newline, isNotC] at h3
    have hcolon2 : ':' ∉ raw := by
      rcases hcolon with hc | hc
      · exact hc
      · exact absurd hc hine
    obtain ⟨hnmeq, hnmclass⟩ := mediaExtTypeFrom_unknown raw nm h2
    refine ih (fun l hl => hclean l (List.mem_cons_of_mem _ hl)) ?_ st' hrun
    apply wfState_push_ext st _ hwf
    right
    right
    refine ⟨nm, us, rfl, hnmclass, ?_, ?_, rfl, husne, ?_⟩
    · apply cleanStr_of_subset _ line _ hline
      intro c hc
      exact hrawsub c (stripDashX_sublist raw c (hnmeq ▸ hc))
    · intro hc
      exact hcolon2 (stripDashX_sublist raw ':' (hnmeq ▸ hc))
    · apply cleanStr_of_subset _ line _ hline
      intro c hc
      exact hisub c (hdec ▸ List.mem_append_left _ hc)
  | case6 line rest st i raw h1 h2 h3 =>
    intro _ _ st' hrun
    simp only [readMediaGo, h1, h2, h3] at hrun
    cases hrun
  | case7 line rest st i raw h1 h2 l2 pd h3 ih =>
    intro hclean hwf st' hrun
    rw [readMediaGo_pdt line rest st i raw pd l2 h1 h2 h3] at hrun
    have hline := hclean line (by simp)
    obtain ⟨-, -, hisub, -⟩ := ext_type_raw_facts line i raw hline.1 h1
    obtain ⟨hpdne, hdec, -, -⟩ := isNotC_some_facts '\n' i l2 pd h3
    refine ih (fun l hl => hclean l (List.mem_cons_of_mem _ hl)) ?_ st' hrun
    apply wfState_set_pdt st pd hwf
    refine ⟨hpdne, cleanStr_of_subset _ line ?_ hline⟩
    intro c hc
    exact hisub c (hdec ▸ List.mem_append_left _ hc)
  | case8 line rest st i raw h1 h2 h3 =>
    intro _ _ st' hrun
    simp only [readMediaGo, h1, h2, h3] at hrun
    cases hrun
  | case9 line st i raw h1 h2 l2 durText titText h3 ih =>
    intro hclean hwf st' hrun
    rw [readMediaGo_inf_last line st i raw l2 durText titText h1 h2 h3] at hrun
    injection hrun with h
    exact h ▸ hwf
  | case10 line st i raw h1 h2 l2 durText titText h3 uri ls h4 =>
    intro _ _ st' hrun
    rw [readMediaGo_inf_uri line uri ls st i raw l2 durText titText h1 h2 h3] at hrun
    simp only [h4] at hrun
    cases hrun
  | case11 line st i raw h1 h2 l2 durText titText h3 uri ls d h4 ih =>
    intro hclean hwf st' hrun
    rw [readMediaGo_inf_uri line uri ls st i raw l2 durText titText h1 h2 h3] at hrun
    simp only [h4] at hrun
    have hline := hclean line (by simp)
    have huri := hclean uri (by simp)
    obtain ⟨-, -, hisub, -⟩ := ext_type_raw_facts line i raw hline.1 h1
    obtain ⟨hdne, htitne, hdsub, htsub⟩ := comma_sep_pair_facts i l2 durText titText h3
    refine ih (fun x hx => hclean x (by simp [hx])) ?_ st' hrun
    apply wfState_push_seg st _ hwf
    refine ⟨⟨titText, by rw [if_neg htitne], htitne,
      cleanStr_of_subset _ line (fun c hc => hisub c (htsub c hc)) hline⟩,
      ⟨huri.1, huri.2⟩, ?_⟩
    exact hwf.2.2.2.2.2
  | case12 line rest st i raw h1 h2 h3 =>
    intro _ _ st' hrun
    simp only [readMediaGo, h1, h2, h3] at hrun
    cases hrun
  | case13 line rest st i raw h1 h2 l2 v h3 h4 =>
    intro _ _ st' hrun
    rw [readMediaGo_version line rest st i raw v l2 h1 h2 h3] at hrun
    simp only [h4] at hrun
    cases hrun
  | case14 line rest st i raw h1 h2 l2 v h3 n h4 ih =>
    intro hclean hwf st' hrun
    rw [readMediaGo_version line rest st i raw v l2 h1 h2 h3] at hrun
    simp only [h4] at hrun
    refine ih (fun x hx => hclean x (List.mem_cons_of_mem _ hx)) ?_ st' hrun
    obtain ⟨-, hb2, hb3, hb4, hb5, hb6⟩ := hwf
    exact ⟨parse_u8_lt v n h4, hb2, hb3, hb4, hb5, hb6⟩
  | case15 line rest st i raw h1 h2 h3 =>
    intro _ _ st' hrun
    simp only [readMediaGo, h1, h2, h3] at hrun
    cases hrun
  | case16 line rest st i raw h1 h2 l2 v h3 h4 =>
    intro _ _ st' hrun
    rw [readMediaGo_targetDuration line rest st i raw v l2 h1 h2 h3] at hrun
    simp only [h4] at hrun
    cases hrun
  | case17 line rest st i raw h1 h2 l2 v h3 n h4 ih =>
    intro hclean hwf st' hrun
    rw [readMediaGo_targetDuration line rest st i raw v l2 h1 h2 h3] at hrun
    simp only [h4] at hrun
    refine ih (fun x hx => hclean x (List.mem_cons_of_mem _ hx)) ?_ st' hrun
    obtain ⟨hb1, -, hb3, hb4, hb5, hb6⟩ := hwf
    exact ⟨hb1, parse_u8_lt v n h4, hb3, hb4, hb5, hb6⟩
  | case18 line rest st i raw h1 h2 h3 =>
    intro _ _ st' hrun
    simp only [readMediaGo, h1, h2, h3] at hrun
    cases hrun
  | case19 line rest st i raw h1 h2 l2 v h3 h4 =>
    intro _ _ st' hrun
    rw [readMediaGo_mediaSequence line rest st i raw v l2 h1 h2 h3] at hrun
    simp only [h4] at hrun
    cases hrun
  | case20 line rest st i raw h1 h2 l2 v h3 n h4 ih =>
    intro hclean hwf st' hrun
    rw [readMediaGo_mediaSequence line rest st i raw v l2 h1 h2 h3] at hrun
    simp only [h4] at hrun
    refine ih (fun x hx => hclean x (List.mem_cons_of_mem _ hx)) ?_ st' hrun
    obtain ⟨hb1, hb2, -, hb4, hb5, hb6⟩ := hwf
    exact ⟨hb1, hb2, parse_u32_lt v n h4, hb4, hb5, hb6⟩
  | case21 line rest st i raw h1 h2 ih =>
    intro hclean hwf st' hrun
    rw [readMediaGo_discontinuity line rest st i raw h1 h2] at hrun
    exact ih (fun x hx => hclean x (List.mem_cons_of_mem _ hx))
      (wfState_push_ext st _ hwf (Or.inl rfl)) st' hrun

/-- The initial parser state is well formed. -/
theorem initMState_wf : wfState initMState := by
  refine ⟨by decide, by decide, by decide, ?_, ?_, Or.inl rfl⟩ <;>
    intro x hx <;> cases hx

/-- Every successful `read_media_list` run on carriage-return-free input
produces a well-formed `MediaList`. -/
theorem read_media_list_wf (t : List Char) (m : MediaList)
    (hcr : '\r' ∉ t) (h : read_media_list t = .ok m) : wfMediaList m := by
  unfold read_media_list at h
  split at h
  · cases h
  next i hid =>
    have hisub : ∀ c ∈ i, c ∈ t := by
      simp only [ext_identifier] at hid
      split at hid
      · injection hid with h2
        rw [← h2]
        exact fun c hc => List.drop_subset _ _ hc
      · cases hid
    cases hrun : readMediaGo (linesOf i) initMState with
    | error e =>
      rw [hrun] at h
      cases h
    | ok st' =>
      rw [hrun] at h
      injection h with h2
      have hlines : ∀ l ∈ linesOf i, '\n' ∉ l ∧ '\r' ∉ l := by
        intro l hl
        obtain ⟨hn, hs⟩ := linesOf_mem i l hl
        exact ⟨hn, fun hc => hcr (hisub _ (hs _ hc))⟩
      have hwf := readMediaGo_wf (linesOf i) initMState hlines initMState_wf st' hrun
      rw [← h2]
      obtain ⟨h1, h3, h4, h5, h6, -⟩ := hwf
      exact ⟨h1, h3, h4, h5, h6⟩


/-! ## Re-parsing the serializer's lines -/

theorem isDigit_ne (c : Char) (h : c.isDigit = true) :
    c ≠ '\n' ∧ c ≠ '\r' ∧ c ≠ ',' := by
  refine ⟨?_, ?_, ?_⟩ <;> intro he <;> subst he <;> simp at h

theorem natDigits_clean (n : Nat) : '\n' ∉ natDigits n ∧ '\r' ∉ natDigits n := by
  constructor <;> intro h <;>
    exact absurd ((natDigits_spec n).2.1 _ h) (by decide)

theorem not_newline_natDigits (n : Nat) :
    not_newline (natDigits n) = some ([], natDigits n) :=
  not_newline_all _ (natDigits_spec n).1 (natDigits_clean n).1

/-- Re-parsing the serialized version line. -/
theorem reparse_version_line (v : Nat) (rest : List (List Char)) (st : MState)
    (hv : v < 256) :
    readMediaGo (( "#EXT-X-VERSION:".data ++ natDigits v) :: rest) st =
      readMediaGo rest { st with version := v } := by
  have hshape : "#EXT-X-VERSION:".data ++ natDigits v =
      "#EXT".data ++ "-X-VERSION".data ++ ':' :: natDigits v := by
    rw [show ("#EXT-X-VERSION:".data : List Char) =
      "#EXT".data ++ "-X-VERSION".data ++ [ ':' ] from by decide]
    simp
  rw [hshape,
    readMediaGo_version _ rest st (natDigits v) ( "-X-VERSION".data ) (natDigits v) []
      (ext_type_raw_colon _ _ (by decide) (by decide))
      (by decide) (not_newline_natDigits v),
    parse_u8_natDigits v hv]

/-- Re-parsing the serialized target-duration line. -/
theorem reparse_targetDuration_line (v : Nat) (rest : List (List Char)) (st : MState)
    (hv : v < 256) :
    readMediaGo (( "#EXT-X-TARGETDURATION:".data ++ natDigits v) :: rest) st =
      readMediaGo rest { st with target_duration := v } := by
  have hshape : "#EXT-X-TARGETDURATION:".data ++ natDigits v =
      "#EXT".data ++ "-X-TARGETDURATION".data ++ ':' :: natDigits v := by
    rw [show ("#EXT-X-TARGETDURATION:".data : List Char) =
      "#EXT".data ++ "-X-TARGETDURATION".data ++ [ ':' ] from by decide]
    simp
  rw [hshape,
    readMediaGo_targetDuration _ rest st (natDigits v) ( "-X-TARGETDURATION".data )
      (natDigits v) []
      (ext_type_raw_colon _ _ (by decide) (by decide))
      (by decide) (not_newline_natDigits v),
    parse_u8_natDigits v hv]

/-- Re-parsing the serialized media-sequence line. -/
theorem reparse_mediaSequence_line (v : Nat) (rest : List (List Char)) (st : MState)
    (hv : v < 4294967296) :
    readMediaGo (( "#EXT-X-MEDIA-SEQUENCE:".data ++ natDigits v) :: rest) st =
      readMediaGo rest { st with media_sequence := v } := by
  have hshape : "#EXT-X-MEDIA-SEQUENCE:".data ++ natDigits v =
      "#EXT".data ++ "-X-MEDIA-SEQUENCE".data ++ ':' :: natDigits v := by
    rw [show ("#EXT-X-MEDIA-SEQUENCE:".data : List Char) =
      "#EXT".data ++ "-X-MEDIA-SEQUENCE".data ++ [ ':' ] from by decide]
    simp
  rw [hshape,
    readMediaGo_mediaSequence _ rest st (natDigits v) ( "-X-MEDIA-SEQUENCE".data )
      (natDigits v) []
      (ext_type_raw_colon _ _ (by decide) (by decide))
      (by decide) (not_newline_natDigits v),
    parse_u32_natDigits v hv]

/-- Re-parsing a serialized date-range ext line. -/
theorem reparse_dateRange_line (attrs : AttrMap) (rest : List (List Char)) (st : MState) :
    readMediaGo (( "#EXT-X-".data ++ mediaExtTypeShow .dateRange ++ [ ':' ] ++
        rejoin_attributes attrs) :: rest) st =
      readMediaGo rest { st with ext_infos := st.ext_infos ++
        [⟨.dateRange, (attributes (rejoin_attributes attrs)).2⟩] } := by
  have hshape : "#EXT-X-".data ++ mediaExtTypeShow .dateRange ++ [ ':' ] ++
      rejoin_attributes attrs =
      "#EXT".data ++ "-X-DATERANGE".data ++ ':' :: rejoin_attributes attrs := by
    rw [show "#EXT-X-".data ++ mediaExtTypeShow .dateRange ++ ([ ':' ] : List Char) =
      "#EXT".data ++ "-X-DATERANGE".data ++ [ ':' ] from by decide]
    simp
  rw [hshape,
    readMediaGo_dateRange _ rest st (rejoin_attributes attrs) ( "-X-DATERANGE".data )
      (ext_type_raw_colon _ _ (by decide) (by decide)) (by decide)]

/-- Re-parsing a serialized discontinuity ext line. -/
theorem reparse_discontinuity_line (rest : List (List Char)) (st : MState) :
    readMediaGo (( "#EXT-X-".data ++ mediaExtTypeShow .discontinuity) :: rest) st =
      readMediaGo rest { st with ext_infos := st.ext_infos ++
        [⟨.discontinuity, []⟩] } := by
  have hshape : "#EXT-X-".data ++ mediaExtTypeShow .discontinuity =
      "#EXT".data ++ "-X-DISCONTINUITY".data := by decide
  rw [hshape,
    readMediaGo_discontinuity _ rest st [] ( "-X-DISCONTINUITY".data )
      (ext_type_raw_no_colon _ (by decide) (by decide) (by decide)) (by decide)]

/-- Re-parsing a serialized unknown ext line. -/
theorem reparse_unknown_line (nm us : List Char) (rest : List (List Char)) (st : MState)
    (hclass : mediaExtTypeFrom nm = .unknown nm) (hnmc : ':' ∉ nm)
    (husne : us ≠ []) (husn : '\n' ∉ us) :
    readMediaGo (( "#EXT-X-".data ++ mediaExtTypeShow (.unknown nm) ++ [ ':' ] ++ us) :: rest) st =
      readMediaGo rest { st with ext_infos := st.ext_infos ++
        [⟨.unknown nm, [( "UNKNOWN".data, us )]⟩] } := by
  have hshape : "#EXT-X-".data ++ mediaExtTypeShow (.unknown nm) ++ [ ':' ] ++ us =
      "#EXT".data ++ ( '-' :: 'X' :: '-' :: nm) ++ ':' :: us := by
    show "#EXT-X-".data ++ nm ++ [ ':' ] ++ us = _
    rw [show ("#EXT-X-".data : List Char) = "#EXT".data ++ [ '-', 'X', '-' ] from by decide]
    simp
  have hname_ne : ( '-' :: 'X' :: '-' :: nm) ≠ ([] : List Char) := by simp
  have hname_nc : ∀ c ∈ ( '-' :: 'X' :: '-' :: nm), c ≠ ':' := by
    intro c hc
    rcases List.mem_cons.mp hc with hc | hc
    · subst hc; decide
    rcases List.mem_cons.mp hc with hc | hc
    · subst hc; decide
    rcases List.mem_cons.mp hc with hc | hc
    · subst hc; decide
    · exact fun he => hnmc (he ▸ hc)
  have hidm : stripDashX nm = nm := (mediaExtTypeFrom_unknown nm nm hclass).1.symm
  have hfrom : mediaExtTypeFrom ( '-' :: 'X' :: '-' :: nm) = .unknown nm := by
    have hs : stripDashX ( '-' :: 'X' :: '-' :: nm) = nm := by
      rw [show stripDashX ( '-' :: 'X' :: '-' :: nm) = stripDashX nm from rfl, hidm]
    simp only [mediaExtTypeFrom, hidm] at hclass
    simp only [mediaExtTypeFrom, hs]
    exact hclass
  rw [hshape,
    readMediaGo_unknown _ rest st us ( '-' :: 'X' :: '-' :: nm) nm us []
      (ext_type_raw_colon _ _ hname_ne hname_nc) hfrom
      (not_newline_all us husne husn)]

/-- Re-parsing a serialized program-date-time line. -/
theorem reparse_pdt_line (pd : List Char) (rest : List (List Char)) (st : MState)
    (hne : pd ≠ []) (hn : '\n' ∉ pd) :
    readMediaGo (( "#EXT-X-".data ++ mediaExtTypeShow .programDateTime ++ [ ':' ] ++ pd) :: rest) st =
      readMediaGo rest { st with current_program_date_time := some pd } := by
  have hshape : "#EXT-X-".data ++ mediaExtTypeShow .programDateTime ++ [ ':' ] ++ pd =
      "#EXT".data ++ "-X-PROGRAM-DATE-TIME".data ++ ':' :: pd := by
    rw [show "#EXT-X-".data ++ mediaExtTypeShow .programDateTime ++ ([ ':' ] : List Char) =
      "#EXT".data ++ "-X-PROGRAM-DATE-TIME".data ++ [ ':' ] from by decide]
    simp
  rw [hshape,
    readMediaGo_pdt _ rest st pd ( "-X-PROGRAM-DATE-TIME".data ) pd []
      (ext_type_raw_colon _ _ (by decide) (by decide)) (by decide)
      (not_newline_all pd hne hn)]

/-- Re-parsing a serialized `#EXTINF` line plus its URI line. -/
theorem reparse_inf_line (d : Rat) (tt uri : List Char) (rest : List (List Char)) (st : MState)
    (httne : tt ≠ []) (httn : '\n' ∉ tt) :
    readMediaGo (( "#EXT".data ++ mediaExtTypeShow .inf ++ [ ':' ] ++
        format3 d ++ [ ',' ] ++ tt) :: uri :: rest) st =
      readMediaGo rest { st with
        media_segments := st.media_segments ++
          [{ duration := roundDur3 d, title := some tt, uri := uri
             program_date_time := st.current_program_date_time }]
        current_program_date_time := none } := by
  have hshape : "#EXT".data ++ mediaExtTypeShow .inf ++ [ ':' ] ++ format3 d ++ [ ',' ] ++ tt =
      "#EXT".data ++ "INF".data ++ ':' :: (format3 d ++ ',' :: tt) := by
    rw [show "#EXT".data ++ mediaExtTypeShow .inf ++ ([ ':' ] : List Char) =
      "#EXT".data ++ "INF".data ++ [ ':' ] from by decide]
    simp
  have hpair : comma_sep_pair (format3 d ++ ',' :: tt) = some ([], (format3 d, tt)) := by
    unfold comma_sep_pair
    rw [isNotC_append_stop ',' (format3 d) tt (format3_ne_nil d)
      (fun c hc he => format3_no_comma d (he ▸ hc))]
    simp only
    rw [not_newline_all tt httne httn]
  rw [hshape,
    readMediaGo_inf_uri _ uri rest st (format3 d ++ ',' :: tt) ( "INF".data ) []
      (format3 d) tt
      (ext_type_raw_colon _ _ (by decide) (by decide)) (by decide) hpair]
  rw [parse_f64_format3 d]
  simp only [if_neg httne]


/-! ## The serializer's lines are clean -/

theorem mem_intersperse {α : Type} (sep x : α) (l : List α)
    (h : x ∈ l.intersperse sep) : x = sep ∨ x ∈ l := by
  induction l with
  | nil => cases h
  | cons a t ih =>
    cases t with
    | nil =>
      simp only [List.intersperse_singleton, List.mem_singleton] at h
      right
      simp [h]
    | cons b t2 =>
      rw [List.intersperse_cons₂] at h
      rcases List.mem_cons.mp h with h | h
      · right
        simp [h]
      rcases List.mem_cons.mp h with h | h
      · left
        exact h
      · rcases ih h with h | h
        · left
          exact h
        · right
          exact List.mem_cons_of_mem _ h

theorem rejoin_attributes_chars (attrs : AttrMap) :
    ∀ c ∈ rejoin_attributes attrs,
      c = ',' ∨ c = '=' ∨ ∃ kv ∈ attrs, c ∈ kv.1 ∨ c ∈ kv.2 := by
  intro c hc
  unfold rejoin_attributes at hc
  rcases List.mem_flatten.mp hc with ⟨piece, hpiece, hcp⟩
  rcases mem_intersperse _ _ _ hpiece with hp | hp
  · subst hp
    simp only [List.mem_singleton] at hcp
    exact Or.inl hcp
  · rcases List.mem_map.mp hp with ⟨kv, hkv, hkvp⟩
    subst hkvp
    split at hcp
    · exact Or.inr (Or.inr ⟨kv, hkv, Or.inr hcp⟩)
    · rcases List.mem_append.mp hcp with hcp | hcp
      · rcases List.mem_append.mp hcp with hcp | hcp
        · exact Or.inr (Or.inr ⟨kv, hkv, Or.inl hcp⟩)
        · simp only [List.mem_singleton] at hcp
          exact Or.inr (Or.inl hcp)
      · exact Or.inr (Or.inr ⟨kv, hkv, Or.inr hcp⟩)

theorem rejoin_attributes_clean (attrs : AttrMap)
    (h : ∀ kv ∈ attrs, cleanStr kv.1 ∧ cleanStr kv.2) :
    '\n' ∉ rejoin_attributes attrs ∧ '\r' ∉ rejoin_attributes attrs := by
  constructor <;> intro hc <;>
    rcases rejoin_attributes_chars attrs _ hc with h0 | h0 | ⟨kv, hkv, h0 | h0⟩ <;>
      first
        | (cases h0)
        | (exact absurd h0 (by exact (h kv hkv).1.1))
        | (exact absurd h0 (by exact (h kv hkv).1.2))
        | (exact absurd h0 (by exact (h kv hkv).2.1))
        | (exact absurd h0 (by exact (h kv hkv).2.2))

theorem extEntryLines_clean (e : MediaExtInfo) (hwf : wfExt e) :
    ∀ l ∈ extEntryLines e, '\n' ∉ l ∧ '\r' ∉ l := by
  intro l hl
  rcases hwf with hd | ⟨hdr, hattrs⟩ | ⟨nm, us, hty, -, hnmc, -, hattr, -, husc⟩
  · simp only [extEntryLines, hd, List.mem_singleton] at hl
    subst hl
    constructor <;> decide
  · simp only [extEntryLines, hdr, List.mem_singleton] at hl
    subst hl
    obtain ⟨hn, hr⟩ := rejoin_attributes_clean e.attributes hattrs
    constructor <;> intro hc <;>
      simp only [List.append_assoc, List.mem_append] at hc
    · rcases hc with hc | hc | hc | hc
      · exact absurd hc (by decide)
      · exact absurd hc (by decide)
      · exact absurd hc (by decide)
      · exact hn hc
    · rcases hc with hc | hc | hc | hc
      · exact absurd hc (by decide)
      · exact absurd hc (by decide)
      · exact absurd hc (by decide)
      · exact hr hc
  · simp only [extEntryLines, hty, List.mem_singleton] at hl
    subst hl
    have hrej : rejoin_attributes e.attributes = us := by
      rw [hattr]
      simp [rejoin_attributes]
    constructor <;> intro hc <;>
      simp only [hrej, mediaExtTypeShow, List.append_assoc, List.mem_append] at hc
    · rcases hc with hc | hc | hc | hc
      · exact absurd hc (by decide)
      · exact hnmc.1 hc
      · exact absurd hc (by decide)
      · exact husc.1 hc
    · rcases hc with hc | hc | hc | hc
      · exact absurd hc (by decide)
      · exact hnmc.2 hc
      · exact absurd hc (by decide)
      · exact husc.2 hc

theorem segmentLines_clean (s : MediaSegment) (hwf : wfSeg s) :
    ∀ l ∈ segmentLines s, '\n' ∉ l ∧ '\r' ∉ l := by
  obtain ⟨⟨tt, htt, -, httc⟩, huric, hpd⟩ := hwf
  intro l hl
  simp only [segmentLines, List.mem_append, List.mem_cons, List.mem_singleton,
    List.not_mem_nil, or_false] at hl
  have hinf : l = "#EXT".data ++ mediaExtTypeShow .inf ++ [ ':' ] ++
      format3 s.duration ++ [ ',' ] ++ (s.title.getD []) →
      '\n' ∉ l ∧ '\r' ∉ l := by
    intro he
    subst he
    have htt2 : s.title.getD [] = tt := by
      rw [htt]
      rfl
    constructor <;> intro hc <;>
      simp only [htt2, mediaExtTypeShow, List.append_assoc, List.mem_append] at hc
    · rcases hc with hc | hc | hc | hc | hc | hc
      · exact absurd hc (by decide)
      · exact absurd hc (by decide)
      · exact absurd hc (by decide)
      · exact format3_no_newline _ hc
      · exact absurd hc (by decide)
      · exact httc.1 hc
    · rcases hc with hc | hc | hc | hc | hc | hc
      · exact absurd hc (by decide)
      · exact absurd hc (by decide)
      · exact absurd hc (by decide)
      · exact format3_no_cr _ hc
      · exact absurd hc (by decide)
      · exact httc.2 hc
  rcases hl with hl | hl | hl
  · rcases hpd with hpdn | ⟨pd, hpdeq, -, hpdc⟩
    · rw [hpdn] at hl
      cases hl
    · rw [hpdeq] at hl
      simp only [List.mem_singleton] at hl
      subst hl
      constructor <;> intro hc <;>
        simp only [mediaExtTypeShow, List.append_assoc, List.mem_append] at hc
      · rcases hc with hc | hc | hc | hc
        · exact absurd hc (by decide)
        · exact absurd hc (by decide)
        · exact absurd hc (by decide)
        · exact hpdc.1 hc
      · rcases hc with hc | hc | hc | hc
        · exact absurd hc (by decide)
        · exact absurd hc (by decide)
        · exact absurd hc (by decide)
        · exact hpdc.2 hc
  · exact hinf hl
  · subst hl
    exact ⟨huric.1, huric.2⟩

theorem saveLines_clean (m : MediaList) (hwf : wfMediaList m) :
    ∀ l ∈ saveLines m, '\n' ∉ l ∧ '\r' ∉ l := by
  intro l hl
  simp only [saveLines, List.mem_append, List.mem_cons, List.mem_singleton,
    List.mem_flatMap, List.not_mem_nil, or_false] at hl
  have hnum : ∀ (pre : List Char) (n : Nat), '\n' ∉ pre → '\r' ∉ pre →
      '\n' ∉ pre ++ natDigits n ∧ '\r' ∉ pre ++ natDigits n := by
    intro pre n h1 h2
    constructor <;> intro hc <;> rcases List.mem_append.mp hc with hc | hc
    · exact h1 hc
    · exact (natDigits_clean n).1 hc
    · exact h2 hc
    · exact (natDigits_clean n).2 hc
  rcases hl with ((hl | hl | hl) | ⟨e, he, hl⟩) | ⟨s, hs, hl⟩
  · subst hl
    exact hnum _ _ (by decide) (by decide)
  · subst hl
    exact hnum _ _ (by decide) (by decide)
  · subst hl
    exact hnum _ _ (by decide) (by decide)
  · exact extEntryLines_clean e (hwf.2.2.2.1 e he) l hl
  · exact segmentLines_clean s (hwf.2.2.2.2 s hs) l hl


/-! ## Re-parsing the serializer's output, block by block -/

theorem readMediaGo_ext_block (es : List MediaExtInfo) :
    ∀ (K : List (List Char)) (st : MState), (∀ e ∈ es, wfExt e) →
    ∃ es2, readMediaGo (es.flatMap extEntryLines ++ K) st =
      readMediaGo K { st with ext_infos := st.ext_infos ++ es2 } := by
  induction es with
  | nil =>
    intro K st _
    refine ⟨[], ?_⟩
    simp
  | cons e es ih =>
    intro K st hwf
    have hwfe := hwf e (by simp)
    rcases hwfe with hd | ⟨hdr, hattrs⟩ |
      ⟨nm, us, hty, hclass, hcleannm, hnc, hattr, husne, husc⟩
    · have hlines : extEntryLines e = [ "#EXT-X-".data ++ mediaExtTypeShow .discontinuity ] := by
        simp [extEntryLines, hd]
      obtain ⟨es2, hres⟩ := ih K { st with ext_infos := st.ext_infos ++ [⟨.discontinuity, []⟩] }
        (fun x hx => hwf x (List.mem_cons_of_mem _ hx))
      refine ⟨⟨.discontinuity, []⟩ :: es2, ?_⟩
      rw [List.flatMap_cons, hlines, List.append_assoc, List.singleton_append]
      rw [reparse_discontinuity_line, hres]
      congr 1
      simp
    · have hlines : extEntryLines e = [ "#EXT-X-".data ++ mediaExtTypeShow .dateRange ++
          [ ':' ] ++ rejoin_attributes e.attributes ] := by
        simp [extEntryLines, hdr]
      obtain ⟨es2, hres⟩ := ih K { st with ext_infos := st.ext_infos ++
          [⟨.dateRange, (attributes (rejoin_attributes e.attributes)).2⟩] }
        (fun x hx => hwf x (List.mem_cons_of_mem _ hx))
      refine ⟨⟨.dateRange, (attributes (rejoin_attributes e.attributes)).2⟩ :: es2, ?_⟩
      rw [List.flatMap_cons, hlines, List.append_assoc, List.singleton_append]
      rw [reparse_dateRange_line, hres]
      congr 1
      simp
    · have hlines : extEntryLines e = [ "#EXT-X-".data ++ mediaExtTypeShow (.unknown nm) ++
          [ ':' ] ++ us ] := by
        simp only [extEntryLines, hty]
        have hrej : rejoin_attributes e.attributes = us := by
          rw [hattr]
          simp [rejoin_attributes]
        rw [hrej]
      obtain ⟨es2, hres⟩ := ih K { st with ext_infos := st.ext_infos ++
          [⟨.unknown nm, [( "UNKNOWN".data, us )]⟩] }
        (fun x hx => hwf x (List.mem_cons_of_mem _ hx))
      refine ⟨⟨.unknown nm, [( "UNKNOWN".data, us )]⟩ :: es2, ?_⟩
      rw [List.flatMap_cons, hlines, List.append_assoc, List.singleton_append]
      rw [reparse_unknown_line nm us _ st hclass hnc husne husc.1, hres]
      congr 1
      simp

theorem readMediaGo_seg_block (segs : List MediaSegment) :
    ∀ st : MState, (∀ s ∈ segs, wfSeg s) →
    st.current_program_date_time = none →
    readMediaGo (segs.flatMap segmentLines) st =
      .ok { st with media_segments := st.media_segments ++ segs.map roundSeg3 } := by
  induction segs with
  | nil =>
    intro st _ hpdt
    show Except.ok st = _
    congr 1
    cases st
    simp
  | cons s segs ih =>
    intro st hwf hpdt
    obtain ⟨⟨tt, htt, httne, httc⟩, huric, hpd⟩ := hwf s (by simp)
    have htt2 : s.title.getD [] = tt := by
      rw [htt]
      rfl
    have hseg : ∀ st2 : MState, st2.current_program_date_time = s.program_date_time →
        st2.media_segments = st.media_segments →
        st2.version = st.version → st2.target_duration = st.target_duration →
        st2.media_sequence = st.media_sequence → st2.ext_infos = st.ext_infos →
        st.current_program_date_time = none →
        readMediaGo (( "#EXT".data ++ mediaExtTypeShow .inf ++ [ ':' ] ++
            format3 s.duration ++ [ ',' ] ++ tt) :: s.uri :: segs.flatMap segmentLines) st2 =
          .ok { st with media_segments := st.media_segments ++ (s :: segs).map roundSeg3 } := by
      intro st2 h1 h2 h3 h4 h5 h6 h7
      rw [reparse_inf_line s.duration tt s.uri _ st2 httne httc.1]
      rw [ih _ (fun x hx => hwf x (List.mem_cons_of_mem _ hx)) rfl]
      congr 1
      obtain ⟨v2, t2, q2, g2, e2, p2⟩ := st2
      obtain ⟨v1, t1, q1, g1, e1, p1⟩ := st
      simp only at h1 h2 h3 h4 h5 h6 h7
      subst h1 h2 h3 h4 h5 h6 h7
      simp only [MState.mk.injEq, List.map_cons, true_and, and_true]
      rw [List.append_assoc, List.singleton_append]
      congr 1
      simp [roundSeg3, roundDur3, htt]
    rcases hpd with hpdn | ⟨pd, hpdeq, hpdne, hpdc⟩
    · have hlines : segmentLines s = [ "#EXT".data ++ mediaExtTypeShow .inf ++ [ ':' ] ++
          format3 s.duration ++ [ ',' ] ++ tt, s.uri ] := by
        simp [segmentLines, hpdn, htt2]
      rw [List.flatMap_cons, hlines]
      exact hseg st (by rw [hpdt, hpdn]) rfl rfl rfl rfl rfl hpdt
    · have hlines : segmentLines s = ( "#EXT-X-".data ++ mediaExtTypeShow .programDateTime ++
          [ ':' ] ++ pd) :: [ "#EXT".data ++ mediaExtTypeShow .inf ++ [ ':' ] ++
          format3 s.duration ++ [ ',' ] ++ tt, s.uri ] := by
        simp [segmentLines, hpdeq, htt2]
      rw [List.flatMap_cons, hlines]
      refine Eq.trans (reparse_pdt_line pd (( "#EXT".data ++ mediaExtTypeShow .inf ++ [ ':' ] ++
        format3 s.duration ++ [ ',' ] ++ tt) :: s.uri :: segs.flatMap segmentLines)
        st hpdne hpdc.1) ?_
      exact hseg _ (by rw [hpdeq]) rfl rfl rfl rfl rfl hpdt

/-- Serializing a well-formed `MediaList` and re-parsing succeeds, and
reproduces the segments with durations rounded to three decimals. -/
theorem save_reparse (m : MediaList) (hwf : wfMediaList m) :
    ∃ m2, read_media_list (saveChars m) = .ok m2 ∧
      m2.media_segments = m.media_segments.map roundSeg3 := by
  unfold read_media_list saveChars
  rw [ext_identifier_append]
  dsimp only
  rw [linesOf_joinNl (saveLines m) (saveLines_clean m hwf)]
  have hshape : saveLines m =
      ( "#EXT-X-VERSION:".data ++ natDigits m.version) ::
      ( "#EXT-X-TARGETDURATION:".data ++ natDigits m.target_duration) ::
      ( "#EXT-X-MEDIA-SEQUENCE:".data ++ natDigits m.media_sequence) ::
      (m.ext_infos.flatMap extEntryLines ++ m.media_segments.flatMap segmentLines) := by
    simp [saveLines]
  rw [hshape]
  rw [reparse_version_line _ _ _ hwf.1,
    reparse_targetDuration_line _ _ _ hwf.2.1,
    reparse_mediaSequence_line _ _ _ hwf.2.2.1]
  obtain ⟨es2, hext⟩ := readMediaGo_ext_block m.ext_infos
    (m.media_segments.flatMap segmentLines)
    { initMState with version := m.version, target_duration := m.target_duration
                      media_sequence := m.media_sequence }
    hwf.2.2.2.1
  rw [hext]
  rw [readMediaGo_seg_block m.media_segments _ hwf.2.2.2.2 rfl]
  simp only [Except.map]
  refine ⟨_, rfl, ?_⟩
  simp [MState.toMediaList, initMState]


/-! ## Single-line inputs -/

theorem splitNl_no_newline (t : List Char) (h : '\n' ∉ t) : splitNl t = [t] := by
  induction t with
  | nil => rfl
  | cons c cs ih =>
    have hc : c ≠ '\n' := fun he => h (he ▸ List.mem_cons_self c cs)
    have hcs : '\n' ∉ cs := fun he => h (List.mem_cons_of_mem _ he)
    simp only [splitNl, if_neg hc, ih hcs]

theorem linesOf_single (t : List Char) (hne : t ≠ []) (h : '\n' ∉ t) :
    linesOf t = [t] := by
  unfold linesOf
  rw [splitNl_no_newline t h]
  simp only [List.reverse_singleton]
  rw [if_neg hne]
  simp

/-! ## Claim theorems: header-only input (C10) -/

/-- The header-only input of claim C10. -/
def headerOnlyInput : List Char := "#EXTM3U\n".data

/-- Claim C10: on the input consisting of exactly the header line `#EXTM3U`
followed by a newline and nothing else, `read_playlist` succeeds with an
empty entry sequence, and `read_media_list` succeeds with version 0,
target duration 0, media sequence 0, no segments and no ext-entries. -/
theorem c10_header_only :
    read_playlist headerOnlyInput = .ok ⟨[]⟩ ∧
    read_media_list headerOnlyInput = .ok ⟨0, 0, 0, [], []⟩ := by
  constructor
  · decide
  · decide

/-! ## Claim theorems: empty Inf title (C2) -/

/-- The failing input of claim C2: an `#EXTINF` line with an empty title
followed by a URI line. -/
def c2FailingInput : List Char := "#EXTM3U\n#EXTINF:2.000,\nseg.ts".data

/-- Claim C2 (code bug): on an `#EXTINF` tag whose remainder is a duration
followed by a comma and an EMPTY title, `read_media_list` fails with a nom
error — the title is read with the nonempty-match combinator
`is_not("\n")`, which rejects the empty string — although the code's own
(unreachable) `if tit != ""` branch and the specification both expect a
segment with `title = None`. -/
theorem c2_empty_title_code_bug :
    read_media_list c2FailingInput = .error .nomError := by
  decide

/-! ## Claim theorems: malformed attribute pairs (C3) -/

/-- The counterexample input of claim C3: a `#EXT-X-MEDIA` line whose
attribute text is a single pair with no `=`. -/
def c3CeInput : List Char := "#EXTM3U\n#EXT-X-MEDIA:FOO".data

/-- Claim C3 counterexample: an attribute-list remainder consisting of the
malformed pair `FOO` (no `=`) does NOT make the parse fail — `read_playlist`
succeeds and the malformed pair is silently dropped, leaving an entry with
an empty attribute map. -/
theorem c3_malformed_pair_counterexample :
    read_playlist c3CeInput = .ok ⟨[⟨.media, []⟩]⟩ := by
  decide

/-- Claim C3 amended: attribute parsing never fails — nom's
`separated_list0` stops at the first malformed pair (missing `=`), drops it
together with the rest of the line, and `read_playlist` succeeds on every
newline-free `#EXT-X-MEDIA` attribute remainder. -/
theorem c3_malformed_pair_amended (i : List Char) (hn : '\n' ∉ i) :
    ∃ p, read_playlist ( "#EXTM3U\n#EXT-X-MEDIA:".data ++ i) = .ok p ∧
      p.ext_infos.length = 1 := by
  have hsplit : ("#EXTM3U\n#EXT-X-MEDIA:".data : List Char) ++ i =
      extHeader ++ ( "#EXT-X-MEDIA:".data ++ i) := by
    rw [show ("#EXTM3U\n#EXT-X-MEDIA:".data : List Char) =
      extHeader ++ "#EXT-X-MEDIA:".data from by decide]
    simp
  have hline : ("#EXT-X-MEDIA:".data : List Char) ++ i =
      "#EXT".data ++ "-X-MEDIA".data ++ ':' :: i := by
    rw [show ("#EXT-X-MEDIA:".data : List Char) =
      "#EXT".data ++ "-X-MEDIA".data ++ [ ':' ] from by decide]
    simp
  have hnl : '\n' ∉ ("#EXT-X-MEDIA:".data : List Char) ++ i := by
    intro hc
    rcases List.mem_append.mp hc with hc | hc
    · exact absurd hc (by decide)
    · exact hn hc
  have hne : ("#EXT-X-MEDIA:".data : List Char) ++ i ≠ [] := by
    intro hc
    rcases List.append_eq_nil.mp hc with ⟨hc1, -⟩
    cases hc1
  unfold read_playlist
  rw [hsplit, ext_identifier_append]
  dsimp only
  rw [linesOf_single _ hne hnl, hline]
  rw [readPlaylistGo_other _ [] [] i ( "-X-MEDIA".data )
    (ext_type_raw_colon _ _ (by decide) (by decide)) (by decide)]
  rw [readPlaylistGo_nil]
  exact ⟨_, rfl, by simp⟩

/-- Witness for the amended claim C3 at the concrete malformed remainder
`FOO`. -/
theorem c3_malformed_pair_witness :
    ∃ p, read_playlist ( "#EXTM3U\n#EXT-X-MEDIA:".data ++ "FOO".data) = .ok p ∧
      p.ext_infos.length = 1 :=
  c3_malformed_pair_amended ( "FOO".data ) (by decide)

/-! ## Claim theorems: trailing Inf tag (C9) -/

/-- The counterexample input of claim C9: a final `#EXTINF` line whose
remainder has no comma. -/
def c9CeInput : List Char := "#EXTM3U\n#EXTINF:2.5".data

/-- The silently-dropped input of amended claim C9: a final `#EXTINF` line
with an invalid duration text but a well-formed comma pair. -/
def c9OkInput : List Char := "#EXTM3U\n#EXTINF:bad,x".data

/-- Claim C9 counterexample: a media playlist whose final line is the
`#EXTINF` tag `#EXTINF:2.5` (no following URI line) makes `read_media_list`
FAIL with a nom error — the comma-pair parse of the remainder runs before
the next-line check — contradicting the claim that every such playlist
parses successfully. -/
theorem c9_trailing_inf_counterexample :
    read_media_list c9CeInput = .error .nomError := by
  decide

/-- Claim C9 amended: when the final line is an `#EXTINF` tag whose
remainder does parse as a comma-separated pair, the tag contributes zero
segments and no partial entry and the loop returns its state unchanged;
the duration text is never parsed, so even an invalid duration (`bad`)
does not fail the parse. -/
theorem c9_trailing_inf_amended :
    (∀ (st : MState) (line i raw l durText titText : List Char),
      ext_type_raw line = some (i, raw) →
      mediaExtTypeFrom raw = .inf →
      comma_sep_pair i = some (l, (durText, titText)) →
      readMediaGo [line] st = .ok st) ∧
    read_media_list c9OkInput = .ok ⟨0, 0, 0, [], []⟩ := by
  constructor
  · intro st line i raw l durText titText h1 h2 h3
    exact readMediaGo_inf_last line st i raw l durText titText h1 h2 h3
  · decide

/-- Witness for the amended claim C9 at the concrete final line
`#EXTINF:bad,x`. -/
theorem c9_trailing_inf_witness :
    readMediaGo [ "#EXTINF:bad,x".data ] initMState = .ok initMState :=
  c9_trailing_inf_amended.1 initMState ( "#EXTINF:bad,x".data )
    ( "bad,x".data ) ( "INF".data ) [] ( "bad".data ) ( "x".data )
    (by decide) (by decide) (by decide)

/-! ## Claim theorems: scalar header fields (C8) -/

/-- The counterexample input of claim C8: a version tag with an empty
remainder. -/
def c8CeInput : List Char := "#EXTM3U\n#EXT-X-VERSION:".data

/-- Inputs for the amended claim C8. -/
def c8DefaultInput : List Char := "#EXTM3U\n".data

def c8LastWinsInput : List Char := "#EXTM3U\n#EXT-X-VERSION:1\n#EXT-X-VERSION:2\n".data

def c8WidthInput : List Char := "#EXTM3U\n#EXT-X-VERSION:256\n".data

def c8NonIntInput : List Char := "#EXTM3U\n#EXT-X-VERSION:abc\n".data

/-- Claim C8 counterexample: a `#EXT-X-VERSION` tag with an EMPTY remainder
is not a valid integer of width `u8`, yet the parse fails with a nom
(grammar) error, not with an integer parse error — the bare-text extraction
`is_not("\n")` rejects the empty remainder before any integer conversion
runs. -/
theorem c8_scalar_fields_counterexample :
    read_media_list c8CeInput = .error .nomError ∧
    M3U8Err.nomError ≠ M3U8Err.parseIntError := by
  constructor
  · decide
  · decide

/-- Claim C8 amended: `version`, `targetDuration` and `mediaSequence` are
parsed from the tag remainder as `u8`, `u8` and `u32` integers, each
occurrence overwriting the field (so the last wins); an absent tag leaves
the default 0; a NONEMPTY remainder that is not a valid integer of the
expected width fails the whole parse with an integer parse error, while an
empty remainder fails with a grammar (nom) error. -/
theorem c8_scalar_fields_amended :
    (∀ (line : List Char) (rest : List (List Char)) (st : MState) (i raw v l : List Char),
      ext_type_raw line = some (i, raw) → mediaExtTypeFrom raw = .version →
      not_newline i = some (l, v) →
      readMediaGo (line :: rest) st =
        match parse_u8 v with
        | none => .error .parseIntError
        | some n => readMediaGo rest { st with version := n }) ∧
    (∀ (line : List Char) (rest : List (List Char)) (st : MState) (i raw v l : List Char),
      ext_type_raw line = some (i, raw) → mediaExtTypeFrom raw = .targetDuration →
      not_newline i = some (l, v) →
      readMediaGo (line :: rest) st =
        match parse_u8 v with
        | none => .error .parseIntError
        | some n => readMediaGo rest { st with target_duration := n }) ∧
    (∀ (line : List Char) (rest : List (List Char)) (st : MState) (i raw v l : List Char),
      ext_type_raw line = some (i, raw) → mediaExtTypeFrom raw = .mediaSequence →
      not_newline i = some (l, v) →
      readMediaGo (line :: rest) st =
        match parse_u32 v with
        | none => .error .parseIntError
        | some n => readMediaGo rest { st with media_sequence := n }) ∧
    (∀ (s : List Char) (n : Nat), parse_u8 s = some n → n < 256) ∧
    (∀ (s : List Char) (n : Nat), parse_u32 s = some n → n < 4294967296) ∧
    read_media_list c8DefaultInput = .ok ⟨0, 0, 0, [], []⟩ ∧
    read_media_list c8LastWinsInput = .ok ⟨2, 0, 0, [], []⟩ ∧
    read_media_list c8WidthInput = .error .parseIntError ∧
    read_media_list c8NonIntInput = .error .parseIntError := by
  refine ⟨?_, ?_, ?_, parse_u8_lt, parse_u32_lt, by decide, by decide, by decide, by decide⟩
  · intro line rest st i raw v l h1 h2 h3
    exact readMediaGo_version line rest st i raw v l h1 h2 h3
  · intro line rest st i raw v l h1 h2 h3
    exact readMediaGo_targetDuration line rest st i raw v l h1 h2 h3
  · intro line rest st i raw v l h1 h2 h3
    exact readMediaGo_mediaSequence line rest st i raw v l h1 h2 h3

/-- Witness for the amended claim C8: the version step at the concrete line
`#EXT-X-VERSION:7`. -/
theorem c8_scalar_fields_witness :
    readMediaGo [ "#EXT-X-VERSION:7".data ] initMState =
      match parse_u8 ( "7".data ) with
      | none => .error .parseIntError
      | some n => readMediaGo [] { initMState with version := n } :=
  c8_scalar_fields_amended.1 ( "#EXT-X-VERSION:7".data ) [] initMState
    ( "7".data ) ( "-X-VERSION".data ) ( "7".data ) []
    (by decide) (by decide) (by decide)


/-! ## A generic invariant on stored ext-entries -/

theorem readMediaGo_ext_pred (P : MediaExtInfo → Prop)
    (hDR : ∀ i, P ⟨.dateRange, (attributes i).2⟩)
    (hUnk : ∀ nm us, P ⟨.unknown nm, [( "UNKNOWN".data, us )]⟩)
    (hDisc : P ⟨.discontinuity, []⟩) :
    ∀ (lines : List (List Char)) (st : MState), (∀ e ∈ st.ext_infos, P e) →
    ∀ st', readMediaGo lines st = .ok st' → ∀ e ∈ st'.ext_infos, P e := by
  intro lines st
  induction lines, st using readMediaGo.induct with
  | case1 st =>
    intro hst st' hrun
    rw [readMediaGo_nil] at hrun
    injection hrun with h
    exact h ▸ hst
  | case2 line rest st h1 =>
    intro _ st' hrun
    rw [readMediaGo_bad_line line rest st h1] at hrun
    cases hrun
  | case3 line rest st i raw h1 h2 ih =>
    intro hst st' hrun
    rw [readMediaGo_dateRange line rest st i raw h1 h2] at hrun
    refine ih ?_ st' hrun
    intro e he
    rcases List.mem_append.mp he with he | he
    · exact hst e he
    · simp only [List.mem_singleton] at he
      exact he ▸ hDR i
  | case4 line rest st i raw h1 nm h2 h3 =>
    intro _ st' hrun
    simp only [readMediaGo, h1, h2, h3] at hrun
    cases hrun
  | case5 line rest st i raw h1 nm h2 l2 us h3 ih =>
    intro hst st' hrun
    rw [readMediaGo_unknown line rest st i raw nm us l2 h1 h2 h3] at hrun
    refine ih ?_ st' hrun
    intro e he
    rcases List.mem_append.mp he with he | he
    · exact hst e he
    · simp only [List.mem_singleton] at he
      exact he ▸ hUnk nm us
  | case6 line rest st i raw h1 h2 h3 =>
    intro _ st' hrun
    simp only [readMediaGo, h1, h2, h3] at hrun
    cases hrun
  | case7 line rest st i raw h1 h2 l2 pd h3 ih =>
    intro hst st' hrun
    rw [readMediaGo_pdt line rest st i raw pd l2 h1 h2 h3] at hrun
    exact ih hst st' hrun
  | case8 line rest st i raw h1 h2 h3 =>
    intro _ st' hrun
    simp only [readMediaGo, h1, h2, h3] at hrun
    cases hrun
  | case9 line st i raw h1 h2 l2 durText titText h3 ih =>
    intro hst st' hrun
    rw [readMediaGo_inf_last line st i raw l2 durText titText h1 h2 h3] at hrun
    injection hrun with h
    exact h ▸ hst
  | case10 line st i raw h1 h2 l2 durText titText h3 uri ls h4 =>
    intro _ st' hrun
    rw [readMediaGo_inf_uri line uri ls st i raw l2 durText titText h1 h2 h3] at hrun
    simp only [h4] at hrun
    cases hrun
  | case11 line st i raw h1 h2 l2 durText titText h3 uri ls d h4 ih =>
    intro hst st' hrun
    rw [readMediaGo_inf_uri line uri ls st i raw l2 durText titText h1 h2 h3] at hrun
    simp only [h4] at hrun
    exact ih hst st' hrun
  | case12 line rest st i raw h1 h2 h3 =>
    intro _ st' hrun
    simp only [readMediaGo, h1, h2, h3] at hrun
    cases hrun
  | case13 line rest st i raw h1 h2 l2 v h3 h4 =>
    intro _ st' hrun
    rw [readMediaGo_version line rest st i raw v l2 h1 h2 h3] at hrun
    simp only [h4] at hrun
    cases hrun
  | case14 line rest st i raw h1 h2 l2 v h3 n h4 ih =>
    intro hst st' hrun
    rw [readMediaGo_version line rest st i raw v l2 h1 h2 h3] at hrun
    simp only [h4] at hrun
    exact ih hst st' hrun
  | case15 line rest st i raw h1 h2 h3 =>
    intro _ st' hrun
    simp only [readMediaGo, h1, h2, h3] at hrun
    cases hrun
  | case16 line rest st i raw h1 h2 l2 v h3 h4 =>
    intro _ st' hrun
    rw [readMediaGo_targetDuration line rest st i raw v l2 h1 h2 h3] at hrun
    simp only [h4] at hrun
    cases hrun
  | case17 line rest st i raw h1 h2 l2 v h3 n h4 ih =>
    intro hst st' hrun
    rw [readMediaGo_targetDuration line rest st i raw v l2 h1 h2 h3] at hrun
    simp only [h4] at hrun
    exact ih hst st' hrun
  | case18 line rest st i raw h1 h2 h3 =>
    intro _ st' hrun
    simp only [readMediaGo, h1, h2, h3] at hrun
    cases hrun
  | case19 line rest st i raw h1 h2 l2 v h3 h4 =>
    intro _ st' hrun
    rw [readMediaGo_mediaSequence line rest st i raw v l2 h1 h2 h3] at hrun
    simp only [h4] at hrun
    cases hrun
  | case20 line rest st i raw h1 h2 l2 v h3 n h4 ih =>
    intro hst st' hrun
    rw [readMediaGo_mediaSequence line rest st i raw v l2 h1 h2 h3] at hrun
    simp only [h4] at hrun
    exact ih hst st' hrun
  | case21 line rest st i raw h1 h2 ih =>
    intro hst st' hrun
    rw [readMediaGo_discontinuity line rest st i raw h1 h2] at hrun
    refine ih ?_ st' hrun
    intro e he
    rcases List.mem_append.mp he with he | he
    · exact hst e he
    · simp only [List.mem_singleton] at he
      exact he ▸ hDisc

/-- Ext-entry predicates transported to `read_media_list` results. -/
theorem read_media_list_ext_pred (P : MediaExtInfo → Prop)
    (hDR : ∀ i, P ⟨.dateRange, (attributes i).2⟩)
    (hUnk : ∀ nm us, P ⟨.unknown nm, [( "UNKNOWN".data, us )]⟩)
    (hDisc : P ⟨.discontinuity, []⟩)
    (t : List Char) (m : MediaList) (h : read_media_list t = .ok m) :
    ∀ e ∈ m.ext_infos, P e := by
  unfold read_media_list at h
  split at h
  · cases h
  next i hid =>
    cases hrun : readMediaGo (linesOf i) initMState with
    | error e =>
      rw [hrun] at h
      cases h
    | ok st' =>
      rw [hrun] at h
      injection h with h2
      have := readMediaGo_ext_pred P hDR hUnk hDisc (linesOf i) initMState
        (by intro e he; cases he) st' hrun
      rw [← h2]
      exact this


/-- C4: a ProgramDateTime tag is never appended to the stored ext-entries of a
successfully parsed media playlist; its remainder is stored in the carried
`current_program_date_time` state, overwriting any previous unconsumed value;
this state persists unchanged across intervening DateRange, Unknown and
Discontinuity tags; and the next Inf tag that produces a segment moves the
carried value (clearing it) into that segment's `program_date_time`, so a
segment built when the carried state is `none` gets `program_date_time = none`. -/
theorem c4_program_date_time_state :
    (∀ t m, read_media_list t = .ok m →
      ∀ e ∈ m.ext_infos, e.ext_type ≠ MediaExtType.programDateTime) ∧
    (∀ line rest st i raw pd l,
      ext_type_raw line = some (i, raw) →
      mediaExtTypeFrom raw = .programDateTime →
      not_newline i = some (l, pd) →
      readMediaGo (line :: rest) st =
        readMediaGo rest { st with current_program_date_time := some pd }) ∧
    (∀ line rest st i raw,
      ext_type_raw line = some (i, raw) →
      (mediaExtTypeFrom raw = .dateRange ∨ mediaExtTypeFrom raw = .discontinuity ∨
        (∃ nm l us, mediaExtTypeFrom raw = .unknown nm ∧ not_newline i = some (l, us))) →
      ∃ st2, readMediaGo (line :: rest) st = readMediaGo rest st2 ∧
        st2.current_program_date_time = st.current_program_date_time) ∧
    (∀ line uri rest st i raw l durText titText d,
      ext_type_raw line = some (i, raw) →
      mediaExtTypeFrom raw = .inf →
      comma_sep_pair i = some (l, (durText, titText)) →
      parse_f64 durText = some d →
      readMediaGo (line :: uri :: rest) st =
        readMediaGo rest { st with
          media_segments := st.media_segments ++
            [{ duration := d
               title := if titText = [] then none else some titText
               uri := uri
               program_date_time := st.current_program_date_time }]
          current_program_date_time := none }) := by
  refine ⟨?_, ?_, ?_, ?_⟩
  · intro t m h
    refine read_media_list_ext_pred (fun e => e.ext_type ≠ MediaExtType.programDateTime)
      ?_ ?_ ?_ t m h
    · intro i hcontra
      cases hcontra
    · intro nm us hcontra
      cases hcontra
    · intro hcontra
      cases hcontra
  · intro line rest st i raw pd l h1 h2 h3
    exact readMediaGo_pdt line rest st i raw pd l h1 h2 h3
  · intro line rest st i raw h1 hcase
    rcases hcase with h2 | h2 | ⟨nm, l, us, h2, h3⟩
    · exact ⟨_, readMediaGo_dateRange line rest st i raw h1 h2, rfl⟩
    · exact ⟨_, readMediaGo_discontinuity line rest st i raw h1 h2, rfl⟩
    · exact ⟨_, readMediaGo_unknown line rest st i raw nm us l h1 h2 h3, rfl⟩
  · intro line uri rest st i raw l durText titText d h1 h2 h3 h4
    rw [readMediaGo_inf_uri line uri rest st i raw l durText titText h1 h2 h3]
    simp only [h4]

theorem c4_program_date_time_witness :
    ext_type_raw "#EXT-X-PROGRAM-DATE-TIME:T".data =
      some ("T".data, "-X-PROGRAM-DATE-TIME".data) ∧
    mediaExtTypeFrom "-X-PROGRAM-DATE-TIME".data = .programDateTime ∧
    not_newline "T".data = some ([], "T".data) ∧
    readMediaGo ["#EXT-X-PROGRAM-DATE-TIME:T".data]
        { initMState with current_program_date_time := some "OLD".data } =
      readMediaGo [] { initMState with current_program_date_time := some "T".data } :=
  ⟨by decide, by decide, by decide,
   c4_program_date_time_state.2.1 "#EXT-X-PROGRAM-DATE-TIME:T".data []
     { initMState with current_program_date_time := some "OLD".data }
     "T".data "-X-PROGRAM-DATE-TIME".data "T".data []
     (by decide) (by decide) (by decide)⟩


/-! ## Insertion-order facts about the attribute map -/

/-- Folding raw key-value pairs into the `IndexMap` model, exactly as
`attributes` does. -/
def foldInsert (ps : List (List Char × List Char)) : AttrMap :=
  ps.foldl (fun m kv => indexInsert m kv.1 kv.2) []

theorem any_key_eq_mem (m : AttrMap) (k : List Char) :
    m.any (fun p => p.1 = k) = true ↔ k ∈ m.map Prod.fst := by
  rw [List.any_eq_true]
  constructor
  · rintro ⟨p, hp, hpk⟩
    exact List.mem_map.mpr ⟨p, hp, of_decide_eq_true hpk⟩
  · intro h
    obtain ⟨p, hp, hpk⟩ := List.mem_map.mp h
    exact ⟨p, hp, decide_eq_true hpk⟩

theorem indexInsert_keys (m : AttrMap) (k v : List Char) :
    (indexInsert m k v).map Prod.fst =
      if k ∈ m.map Prod.fst then m.map Prod.fst else m.map Prod.fst ++ [k] := by
  by_cases h : k ∈ m.map Prod.fst
  · have hany : m.any (fun p => p.1 = k) = true := (any_key_eq_mem m k).mpr h
    rw [if_pos h]
    simp only [indexInsert, hany, if_true]
    rw [List.map_map]
    refine List.map_congr_left ?_
    intro p _
    by_cases hpk : p.1 = k
    · simp [hpk]
    · simp [hpk]
  · have hany : m.any (fun p => p.1 = k) = false :=
      Bool.eq_false_iff.mpr (fun hc => h ((any_key_eq_mem m k).mp hc))
    rw [if_neg h]
    simp [indexInsert, hany]

theorem attrGet_append_new (m : AttrMap) (k v : List Char)
    (h : m.any (fun p => p.1 = k) = false) :
    attrGet (m ++ [(k, v)]) k = some v := by
  induction m with
  | nil => simp [attrGet]
  | cons p t ih =>
    simp only [List.any_cons, Bool.or_eq_false_iff] at h
    have hp : (decide (p.1 = k)) = false := h.1
    simp only [List.cons_append, attrGet, List.find?_cons, hp]
    exact ih h.2

theorem attrGet_map_overwrite (m : AttrMap) (k v : List Char)
    (h : m.any (fun p => p.1 = k) = true) :
    attrGet (m.map (fun p => if p.1 = k then (p.1, v) else p)) k = some v := by
  induction m with
  | nil => cases h
  | cons p t ih =>
    by_cases hp : p.1 = k
    · simp [attrGet, List.find?_cons, hp]
    · simp only [List.any_cons, Bool.or_eq_true] at h
      rcases h with h | h
      · exact absurd (of_decide_eq_true h) hp
      · simpa [attrGet, List.find?_cons, hp] using ih h

theorem attrGet_indexInsert_self (m : AttrMap) (k v : List Char) :
    attrGet (indexInsert m k v) k = some v := by
  unfold indexInsert
  by_cases hany : m.any (fun p => p.1 = k) = true
  · simp only [hany, if_true]
    exact attrGet_map_overwrite m k v hany
  · have hf : m.any (fun p => p.1 = k) = false := Bool.eq_false_iff.mpr hany
    simp only [hf, Bool.false_eq_true, if_false]
    exact attrGet_append_new m k v hf

theorem attributes_foldInsert (i : List Char) :
    (attributes i).2 = foldInsert (attrList i).2 := by
  cases hal : attrList i with
  | mk r l => simp [attributes, foldInsert, hal]

/-- C6: attribute-list parsing returns an insertion-ordered map: the quoted
`CODECS` example parses to the single key `CODECS` with the quotes retained
and the internal comma not treated as a separator; an empty remainder yields
an empty map; in general the map is the left fold of `indexInsert` over the
raw pair list, and each insertion appends a brand-new key at the end while a
duplicate key keeps its first-seen position and only its value is replaced. -/
theorem c6_attribute_map :
    attributes ( "CODECS=\"avc1.4D401F,mp4a.40.2\"".data ) =
      ([], [( "CODECS".data, "\"avc1.4D401F,mp4a.40.2\"".data )]) ∧
    attributes [] = ([], []) ∧
    (∀ i, (attributes i).2 = foldInsert (attrList i).2) ∧
    (∀ ps k v, (foldInsert (ps ++ [(k, v)])).map Prod.fst =
      if k ∈ (foldInsert ps).map Prod.fst then (foldInsert ps).map Prod.fst
      else (foldInsert ps).map Prod.fst ++ [k]) ∧
    (∀ ps k v, attrGet (foldInsert (ps ++ [(k, v)])) k = some v) := by
  refine ⟨by decide, by decide, attributes_foldInsert, ?_, ?_⟩
  · intro ps k v
    simp only [foldInsert, List.foldl_append, List.foldl_cons, List.foldl_nil]
    exact indexInsert_keys _ k v
  · intro ps k v
    simp only [foldInsert, List.foldl_append, List.foldl_cons, List.foldl_nil]
    exact attrGet_indexInsert_self _ k v


/-! ## C7: the synthetic URI key of StreamInf entries -/

def c7CeInput : List Char := "#EXTM3U\n#EXT-X-STREAM-INF:URI=x".data

/-- C7 counterexample: the claim says that when a StreamInf tag line is the
last line, the produced entry has no `URI` key.  But the attribute text of
the tag line itself may contain a `URI=` pair, which is kept verbatim: on
`#EXTM3U\n#EXT-X-STREAM-INF:URI=x` the sole StreamInf entry's map does
contain a `URI` key (mapped to `x`), with no following line in sight. -/
theorem c7_stream_inf_uri_counterexample :
    read_playlist c7CeInput =
      .ok ⟨[⟨.streamInf, [( "URI".data, "x".data )]⟩]⟩ ∧
    attrGet [( "URI".data, "x".data )] ( "URI".data ) = some ( "x".data ) := by
  constructor
  · decide
  · decide

/-- C7 amended: when a line following the StreamInf tag line exists, the
entry receives a `URI` key mapped to that following line (inserted with
`indexInsert`, hence retrievable); when the tag line is the last line, the
entry is still produced — with exactly the attribute map parsed from the tag
line's own text, which may or may not already contain a `URI` key — and the
parse of that final line succeeds. -/
theorem c7_stream_inf_uri_amended :
    (∀ line uri rest acc i raw,
      ext_type_raw line = some (i, raw) →
      playlistExtTypeFrom raw = .streamInf →
      readPlaylistGo (line :: uri :: rest) acc =
        readPlaylistGo rest
          (acc ++ [⟨.streamInf, indexInsert (attributes i).2 ( "URI".data ) uri⟩])) ∧
    (∀ attrs uri, attrGet (indexInsert attrs ( "URI".data ) uri) ( "URI".data ) = some uri) ∧
    (∀ line acc i raw,
      ext_type_raw line = some (i, raw) →
      playlistExtTypeFrom raw = .streamInf →
      readPlaylistGo [line] acc = .ok ⟨acc ++ [⟨.streamInf, (attributes i).2⟩]⟩) := by
  refine ⟨?_, ?_, ?_⟩
  · intro line uri rest acc i raw h1 h2
    exact readPlaylistGo_streamInf_uri line uri rest acc i raw h1 h2
  · intro attrs uri
    exact attrGet_indexInsert_self attrs ( "URI".data ) uri
  · intro line acc i raw h1 h2
    exact readPlaylistGo_streamInf_last line acc i raw h1 h2

theorem c7_stream_inf_uri_witness :
    ext_type_raw ( "#EXT-X-STREAM-INF:BANDWIDTH=1".data ) =
      some ( "BANDWIDTH=1".data, "-X-STREAM-INF".data ) ∧
    playlistExtTypeFrom ( "-X-STREAM-INF".data ) = .streamInf ∧
    readPlaylistGo [ "#EXT-X-STREAM-INF:BANDWIDTH=1".data, "u.m3u8".data ] [] =
      readPlaylistGo []
        ([] ++ [⟨.streamInf,
          indexInsert (attributes ( "BANDWIDTH=1".data )).2 ( "URI".data )
            ( "u.m3u8".data )⟩]) :=
  ⟨by decide, by decide,
   c7_stream_inf_uri_amended.1 ( "#EXT-X-STREAM-INF:BANDWIDTH=1".data )
     ( "u.m3u8".data ) [] [] ( "BANDWIDTH=1".data ) ( "-X-STREAM-INF".data )
     (by decide) (by decide)⟩


/-! ## C5: the emitted text of MediaList::save, as the spec words it -/

/-- The rejoin step exactly as the claim words it: a SOLE key `UNKNOWN`
emits its raw value with no `key=`; otherwise every pair is emitted as
`key=value`, comma-joined in map order. -/
def rejoinClaim (m : AttrMap) : List Char :=
  match m with
  | [(k, v)] => if k = "UNKNOWN".data then v else k ++ [ '=' ] ++ v
  | _ => ((m.map (fun p => p.1 ++ [ '=' ] ++ p.2)).intersperse [ ',' ]).flatten

/-- The rejoin step of the amended claim: EVERY pair whose key is `UNKNOWN`
emits its raw value with no `key=`, every other pair `key=value`,
comma-joined in map order. -/
def rejoinAmended : AttrMap → List Char
  | [] => []
  | [p] => if p.1 = "UNKNOWN".data then p.2 else p.1 ++ [ '=' ] ++ p.2
  | p :: q :: rest =>
    (if p.1 = "UNKNOWN".data then p.2 else p.1 ++ [ '=' ] ++ p.2) ++ [ ',' ] ++
      rejoinAmended (q :: rest)

/-- The text one stored ext-entry contributes to the output, as the claim
words it, with the rejoin step supplied as a parameter: Inf and
ProgramDateTime kinds are skipped, Discontinuity is a bare tag line, every
other kind is a `#EXT-X-<TYPE>:<rejoined attributes>` line. -/
def extEntryTextWith (rj : AttrMap → List Char) (e : MediaExtInfo) : List Char :=
  match e.ext_type with
  | .inf => []
  | .programDateTime => []
  | .discontinuity => "#EXT-X-DISCONTINUITY\n".data
  | t => "#EXT-X-".data ++ mediaExtTypeShow t ++ [ ':' ] ++ rj e.attributes ++ [ '\n' ]

/-- The text one media segment contributes, as the claim words it: an
optional program-date-time line when present, an `#EXTINF:` line whose
duration carries exactly three fractional digits and whose title is empty
when `none`, then the URI line. -/
def segmentTextClaim (s : MediaSegment) : List Char :=
  (match s.program_date_time with
   | some pd => "#EXT-X-PROGRAM-DATE-TIME:".data ++ pd ++ [ '\n' ]
   | none => []) ++
  "#EXTINF:".data ++ format3 s.duration ++ [ ',' ] ++ s.title.getD [] ++ [ '\n' ] ++
  s.uri ++ [ '\n' ]

/-- The full emitted text as the claim words it, with the rejoin step
supplied as a parameter: header, version, target-duration and
media-sequence lines from the three scalar fields, then the ext-entries in
stored order, then the segments in stored order. -/
def saveTextWith (rj : AttrMap → List Char) (m : MediaList) : List Char :=
  "#EXTM3U\n".data ++
  "#EXT-X-VERSION:".data ++ natDigits m.version ++ [ '\n' ] ++
  "#EXT-X-TARGETDURATION:".data ++ natDigits m.target_duration ++ [ '\n' ] ++
  "#EXT-X-MEDIA-SEQUENCE:".data ++ natDigits m.media_sequence ++ [ '\n' ] ++
  (m.ext_infos.map (extEntryTextWith rj)).flatten ++
  (m.media_segments.map segmentTextClaim).flatten

/-- `MediaList::save` output as the original claim words it. -/
def saveClaimChars (m : MediaList) : List Char := saveTextWith rejoinClaim m

/-- `MediaList::save` output as the amended claim words it. -/
def saveAmendedChars (m : MediaList) : List Char := saveTextWith rejoinAmended m

theorem rejoinAmended_eq (m : AttrMap) : rejoinAmended m = rejoin_attributes m := by
  induction m with
  | nil => rfl
  | cons p rest ih =>
    cases rest with
    | nil =>
      simp [rejoinAmended, rejoin_attributes, List.intersperse]
    | cons q rest2 =>
      simp only [rejoinAmended, rejoin_attributes, List.map_cons, List.intersperse,
        List.flatten_cons, List.append_assoc] at ih ⊢
      rw [ih]

theorem joinNl_append (a b : List (List Char)) :
    joinNl (a ++ b) = joinNl a ++ joinNl b := by
  simp [joinNl]

theorem joinNl_extEntry (e : MediaExtInfo) :
    joinNl (extEntryLines e) = extEntryTextWith rejoinAmended e := by
  obtain ⟨t, attrs⟩ := e
  cases t with
  | inf => rfl
  | programDateTime => rfl
  | discontinuity => rfl
  | version =>
    simp [extEntryLines, extEntryTextWith, joinNl, rejoinAmended_eq]
  | targetDuration =>
    simp [extEntryLines, extEntryTextWith, joinNl, rejoinAmended_eq]
  | mediaSequence =>
    simp [extEntryLines, extEntryTextWith, joinNl, rejoinAmended_eq]
  | dateRange =>
    simp [extEntryLines, extEntryTextWith, joinNl, rejoinAmended_eq]
  | unknown raw =>
    simp [extEntryLines, extEntryTextWith, joinNl, rejoinAmended_eq]

theorem joinNl_segment (s : MediaSegment) :
    joinNl (segmentLines s) = segmentTextClaim s := by
  obtain ⟨d, tit, uri, pdt⟩ := s
  cases pdt with
  | none =>
    simp [segmentLines, segmentTextClaim, joinNl, mediaExtTypeShow]
  | some pd =>
    simp [segmentLines, segmentTextClaim, joinNl, mediaExtTypeShow]

/-- C5 amended: for every `MediaList`, the text `save` emits is exactly the
spec's description with the rejoin step corrected to treat EVERY key equal
to `UNKNOWN` (not only a sole key) as bare-value: header line, then
version, target-duration and media-sequence lines from the scalar fields,
then the ext-entries in stored order (Inf and ProgramDateTime skipped,
Discontinuity bare, per-key UNKNOWN rejoin), then the segments in stored
order with optional program-date-time line, three-decimal `#EXTINF` line
with empty title for `none`, and URI line. -/
theorem c5_save_amended (m : MediaList) : saveChars m = saveAmendedChars m := by
  obtain ⟨v, td, ms, segs, exts⟩ := m
  show extHeader ++ joinNl (saveLines ⟨v, td, ms, segs, exts⟩) = _
  rw [saveLines]
  rw [joinNl_append, joinNl_append]
  have hE : joinNl (exts.flatMap extEntryLines) =
      (exts.map (extEntryTextWith rejoinAmended)).flatten := by
    induction exts with
    | nil => rfl
    | cons e rest ih =>
      rw [List.flatMap_cons, joinNl_append, List.map_cons, List.flatten_cons,
        joinNl_extEntry, ih]
  have hS : joinNl (segs.flatMap segmentLines) =
      (segs.map segmentTextClaim).flatten := by
    induction segs with
    | nil => rfl
    | cons s rest ih =>
      rw [List.flatMap_cons, joinNl_append, List.map_cons, List.flatten_cons,
        joinNl_segment, ih]
  rw [hE, hS]
  simp [saveAmendedChars, saveTextWith, extHeader, joinNl, List.append_assoc]

theorem c5_save_amended_witness : saveChars
    { version := 0, target_duration := 0, media_sequence := 0,
      media_segments := [], ext_infos := [] } = saveAmendedChars
    { version := 0, target_duration := 0, media_sequence := 0,
      media_segments := [], ext_infos := [] } :=
  c5_save_amended
    { version := 0, target_duration := 0, media_sequence := 0,
      media_segments := [], ext_infos := [] }

def c5CeList : MediaList :=
  { version := 0, target_duration := 0, media_sequence := 0,
    media_segments := [],
    ext_infos := [⟨.dateRange, [( "A".data, "1".data ), ( "UNKNOWN".data, "2".data )]⟩] }

/-- C5 counterexample: on an ext-entry whose map is `A=1` followed by
`UNKNOWN=2`, the source emits the `UNKNOWN` pair's bare value (the check is
per key), giving `#EXT-X-DATERANGE:A=1,2`, while the claim's sole-key
wording emits `A=1,UNKNOWN=2`; the two serializations differ. -/
theorem c5_save_counterexample :
    saveChars c5CeList =
      ( "#EXTM3U\n#EXT-X-VERSION:0\n#EXT-X-TARGETDURATION:0\n#EXT-X-MEDIA-SEQUENCE:0\n#EXT-X-DATERANGE:A=1,2\n".data ) ∧
    saveClaimChars c5CeList =
      ( "#EXTM3U\n#EXT-X-VERSION:0\n#EXT-X-TARGETDURATION:0\n#EXT-X-MEDIA-SEQUENCE:0\n#EXT-X-DATERANGE:A=1,UNKNOWN=2\n".data ) ∧
    saveChars c5CeList ≠ saveClaimChars c5CeList := by
  refine ⟨by decide, by decide, by decide⟩


/-! ## C1: the save/re-parse round trip on media playlists -/

def c1CeInput : List Char := "#EXTM3U\n#EXTINF:2.0001,t\nu".data

def c1CeParsed : MediaList :=
  { version := 0, target_duration := 0, media_sequence := 0,
    media_segments := [{ duration := mkRat 20001 10000, title := some ( "t".data ),
                         uri := "u".data, program_date_time := none }],
    ext_infos := [] }

def c1CeReparsed : MediaList :=
  { version := 0, target_duration := 0, media_sequence := 0,
    media_segments := [{ duration := mkRat 2 1, title := some ( "t".data ),
                         uri := "u".data, program_date_time := none }],
    ext_infos := [] }

/-- C1 counterexample: the playlist `#EXTM3U\n#EXTINF:2.0001,t\nu` parses to
a segment of duration 2.0001, but `save` formats the duration with `\x7b:.3\x7d`,
emitting `2.000`; re-parsing yields duration 2, so the round-tripped
segments sequence is NOT element-wise equal to the first parse's. -/
theorem c1_roundtrip_counterexample :
    read_media_list c1CeInput = .ok c1CeParsed ∧
    read_media_list (saveChars c1CeParsed) = .ok c1CeReparsed ∧
    c1CeReparsed.media_segments ≠ c1CeParsed.media_segments := by
  refine ⟨by decide, by decide, by decide⟩

/-- C1 amended: for every carriage-return-free media playlist text on which
`read_media_list` succeeds with result `p`, serializing `p` with `save` and
re-parsing succeeds, and yields a `MediaList` whose segments sequence equals
`p`'s element-wise — same title, uri and programDateTime in the same order —
with each duration rounded to three decimal places (so durations already at
three decimals, in particular, survive unchanged). -/
theorem c1_roundtrip_amended (t : List Char) (p : MediaList)
    (hcr : '\r' ∉ t) (h : read_media_list t = .ok p) :
    ∃ p2, read_media_list (saveChars p) = .ok p2 ∧
      p2.media_segments = p.media_segments.map roundSeg3 :=
  save_reparse p (read_media_list_wf t p hcr h)

def c1WitnessInput : List Char := "#EXTM3U\n#EXTINF:3.5,hello\nseg.ts".data

def c1WitnessParsed : MediaList :=
  { version := 0, target_duration := 0, media_sequence := 0,
    media_segments := [{ duration := mkRat 7 2, title := some ( "hello".data ),
                         uri := "seg.ts".data, program_date_time := none }],
    ext_infos := [] }

theorem c1_roundtrip_witness :
    '\r' ∉ c1WitnessInput ∧
    read_media_list c1WitnessInput = .ok c1WitnessParsed ∧
    ∃ p2, read_media_list (saveChars c1WitnessParsed) = .ok p2 ∧
      p2.media_segments = c1WitnessParsed.media_segments.map roundSeg3 :=
  ⟨by decide, by decide,
   c1_roundtrip_amended c1WitnessInput c1WitnessParsed (by decide) (by decide)⟩

end M3U8

